import Mathlib

/-!
Thread pool (`src/pool/c/thread _pool.c`).

Shallow embedding of the bounded task queue of the thread pool and of the
three places that touch it while holding `pool->lock`:

* `add_task` (lines 43-62),
* one pass of the critical section of `thread_worker` (lines 88-106),
* the flag update of `destroy_thread_pool` (lines 65-70).

C `int` fields are `Int`.  Every C operation whose behaviour is undefined
(an index outside `task_queue`, `%` by zero, `count - 1` below `INT_MIN`)
makes the embedded function return `none`; the theorems show that this never
happens in a state satisfying the ring-buffer invariant.
-/

namespace thread_pool

/-- Number of worker threads: `#define THREAD_POOL_SIZE 4` (line 6). -/
def THREAD_POOL_SIZE : Nat := 4

/-- Capacity of the task queue: `#define TASK_QUEUE_SIZE 10` (line 7). -/
def TASK_QUEUE_SIZE : Nat := 10

/-- Smallest value of a 32-bit C `int`. -/
def INT_MIN : Int := -2147483648

/-- C struct `Task` (lines 9-12): a function pointer and its argument, both kept as addresses. -/
structure Task where
  function : Nat
  arg : Nat
deriving DecidableEq

/-- C struct `ThreadPool` (lines 14-24) without the synchronisation objects `lock`, `notify`
and `threads`.  A slot of `task_queue` is `none` while it still holds the
indeterminate bytes left by `malloc`, and `some t` once a task was stored in it. -/
structure ThreadPool where
  task_queue : Fin TASK_QUEUE_SIZE → Option Task
  queue_size : Int
  head : Int
  tail : Int
  count : Int
  shutdown : Int

/-- C function `create_thread_pool` (lines 28-41): the memory written by lines 30-32. -/
def create_thread_pool : ThreadPool :=
  { task_queue := fun _ => none
    queue_size := TASK_QUEUE_SIZE
    head := 0
    tail := 0
    count := 0
    shutdown := 0 }

/-- Everything a call of `add_task` leaves behind.  `ret` is the value handed back
to the caller (the function is `void`), `pool` the memory after the call, `stdout`
the lines written by `printf`, `signalled` whether `pthread_cond_signal` was called. -/
structure AddTaskResult where
  ret : Unit
  pool : ThreadPool
  stdout : List String
  signalled : Bool

/-- C function `add_task` (lines 43-62), with the lock held from line 44 to line 61. -/
def add_task (pool : ThreadPool) (function arg : Nat) : Option AddTaskResult :=
  if pool.count < pool.queue_size then
    let task : Task := { function := function, arg := arg }
    if h : 0 ≤ pool.tail ∧ pool.tail < TASK_QUEUE_SIZE ∧ pool.queue_size ≠ 0 then
      some
        { ret := ()
          pool :=
            { pool with
              task_queue :=
                Function.update pool.task_queue
                  ⟨pool.tail.toNat, by have := h.1; have := h.2.1; omega⟩ (some task)
              tail := Int.tmod (pool.tail + 1) pool.queue_size
              count := pool.count + 1 }
          stdout := []
          signalled := true }
    else
      none
  else
    some
      { ret := ()
        pool := pool
        stdout := ["Fila de tarefas cheia. Tarefa descartada.\n"]
        signalled := false }

/-- C function `destroy_thread_pool`, lines 65-70: the flag is set while the lock is held.
Joining the workers and freeing the pool (lines 72-79) are not part of the state. -/
def destroy_thread_pool (pool : ThreadPool) : ThreadPool :=
  { pool with shutdown := 1 }

/-- How one pass through the critical section of `thread_worker` ends. -/
inductive WorkerStep where
  /-- The wait condition of line 91 holds: the worker stays in `pthread_cond_wait`. -/
  | waiting
  /-- Line 96: the flag is set, the worker leaves the loop (`break`). -/
  | exited
  /-- Lines 102-106: the content of the slot at `head`, run afterwards at line 109. -/
  | dequeued (task : Option Task)
deriving DecidableEq

/-- C function `thread_worker`, lines 88-106: one pass through the critical section. -/
def thread_worker (pool : ThreadPool) : Option (WorkerStep × ThreadPool) :=
  if pool.count = 0 ∧ pool.shutdown = 0 then
    some (WorkerStep.waiting, pool)
  else if pool.shutdown ≠ 0 then
    some (WorkerStep.exited, pool)
  else if h : 0 ≤ pool.head ∧ pool.head < TASK_QUEUE_SIZE ∧ pool.queue_size ≠ 0
      ∧ INT_MIN < pool.count then
    some
      (WorkerStep.dequeued (pool.task_queue ⟨pool.head.toNat, by have := h.1; have := h.2.1; omega⟩),
        { pool with
          head := Int.tmod (pool.head + 1) pool.queue_size
          count := pool.count - 1 })
  else
    none

/-- The operations that run under `pool->lock`. -/
inductive Op where
  | add (function arg : Nat)
  | work
  | destroy
deriving DecidableEq

/-- The pool together with its history: the tasks `add_task` accepted and the slot
contents the workers took out, both oldest first. -/
structure Sys where
  pool : ThreadPool
  accepted : List Task
  dequeued : List (Option Task)

/-- The system right after `create_thread_pool`. -/
def Sys.init : Sys :=
  { pool := create_thread_pool, accepted := [], dequeued := [] }

/-- One operation applied to the system. -/
def step (s : Sys) : Op → Option Sys
  | Op.add function arg =>
    match add_task s.pool function arg with
    | none => none
    | some r =>
      some
        { pool := r.pool
          accepted :=
            if r.signalled then s.accepted ++ [{ function := function, arg := arg }]
            else s.accepted
          dequeued := s.dequeued }
  | Op.work =>
    match thread_worker s.pool with
    | none => none
    | some (WorkerStep.dequeued task, pool) =>
      some { pool := pool, accepted := s.accepted, dequeued := s.dequeued ++ [task] }
    | some (_, pool) =>
      some { pool := pool, accepted := s.accepted, dequeued := s.dequeued }
  | Op.destroy =>
    some { pool := destroy_thread_pool s.pool, accepted := s.accepted, dequeued := s.dequeued }

/-- A sequence of operations, in any interleaving, applied from left to right. -/
def run (s : Sys) : List Op → Option Sys
  | [] => some s
  | op :: ops =>
    match step s op with
    | none => none
    | some s' => run s' ops

/-- The ring-buffer invariant. -/
def RingInv (pool : ThreadPool) : Prop :=
  pool.queue_size = TASK_QUEUE_SIZE ∧
  0 ≤ pool.count ∧ pool.count ≤ pool.queue_size ∧
  0 ≤ pool.head ∧ pool.head < pool.queue_size ∧
  0 ≤ pool.tail ∧ pool.tail < pool.queue_size ∧
  pool.tail = (pool.head + pool.count) % pool.queue_size

instance (pool : ThreadPool) : Decidable (RingInv pool) := by
  unfold RingInv; infer_instance

/-- The slot `i` places after `head`, wrapping around the array. -/
def slotAt (pool : ThreadPool) (i : Nat) : Option Task :=
  pool.task_queue ⟨(pool.head.toNat + i) % TASK_QUEUE_SIZE, Nat.mod_lt _ (by decide)⟩

/-- The queue as a list: the `count` slots starting at `head`, oldest first. -/
def contents (pool : ThreadPool) : List (Option Task) :=
  (List.range pool.count.toNat).map (slotAt pool)

/-- What the reachable states of the system satisfy: the ring-buffer invariant, and
the tasks taken out followed by the tasks still queued are the accepted tasks. -/
def Good (s : Sys) : Prop :=
  RingInv s.pool ∧ s.dequeued ++ contents s.pool = s.accepted.map some

/-- The operation submitting task `t`. -/
def addOp (t : Task) : Op :=
  Op.add t.function t.arg

/-- A pool whose queue is full: ten tasks stored, `head = tail = 0`, `count = 10`. -/
def exampleFull : ThreadPool :=
  { task_queue := fun i => some { function := i.val, arg := 100 + i.val }
    queue_size := 10
    head := 0
    tail := 0
    count := 10
    shutdown := 0 }

/-- Specification model, written from the spec's words ("ordered sequence of Task,
fixed capacity C, FIFO"; "succeeds and appends at tail iff count < C"; "removes and
returns the item at head"): a list with its history. -/
structure ListQueue where
  queue : List Task
  accepted : List Task
  dequeued : List Task
deriving DecidableEq

/-- The empty specification queue. -/
def ListQueue.empty : ListQueue :=
  { queue := [], accepted := [], dequeued := [] }

/-- One operation on the specification queue: a submission appends at the back when
fewer than `TASK_QUEUE_SIZE` tasks are queued, a worker removes the front when there
is one.  Shutdown is not part of this model. -/
def ListQueue.step (q : ListQueue) : Op → ListQueue
  | Op.add function arg =>
    if q.queue.length < TASK_QUEUE_SIZE then
      { queue := q.queue ++ [{ function := function, arg := arg }]
        accepted := q.accepted ++ [{ function := function, arg := arg }]
        dequeued := q.dequeued }
    else q
  | Op.work =>
    match q.queue with
    | [] => q
    | t :: rest => { queue := rest, accepted := q.accepted, dequeued := q.dequeued ++ [t] }
  | Op.destroy => q

/-- A sequence of operations on the specification queue. -/
def ListQueue.run (q : ListQueue) (ops : List Op) : ListQueue :=
  ops.foldl ListQueue.step q

instance (s : Sys) : Decidable (Good s) := by
  unfold Good; infer_instance

/-- The link between the pool (while no shutdown was requested) and the
specification queue: same queued tasks, same history. -/
def Sim (s : Sys) (q : ListQueue) : Prop :=
  Good s ∧ s.pool.shutdown = 0 ∧ contents s.pool = q.queue.map some ∧
  s.accepted = q.accepted ∧ s.dequeued = q.dequeued.map some

/-- Ten tasks, as submitted by `main` (lines 125-129). -/
def exampleTasks : List Task :=
  (List.range 10).map fun i => { function := 4096, arg := 8192 + 4 * i }

/-- An interleaving of submissions and worker passes without shutdown. -/
def exampleOps : List Op :=
  [Op.add 1 2, Op.add 3 4, Op.work, Op.add 5 6, Op.work, Op.work, Op.work, Op.add 7 8]

/-- A system with three tasks queued, one of four already taken out, at the moment
`destroy_thread_pool` has set the flag. -/
def exampleShutdown : Sys :=
  { pool :=
      { task_queue := fun i => if i.val < 4 then some { function := i.val, arg := 0 } else none
        queue_size := 10
        head := 1
        tail := 4
        count := 3
        shutdown := 1 }
    accepted :=
      [{ function := 0, arg := 0 }, { function := 1, arg := 0 }, { function := 2, arg := 0 },
        { function := 3, arg := 0 }]
    dequeued := [some { function := 0, arg := 0 }] }

/-! ### Threads

The worker threads and the thread running `destroy_thread_pool`, as a step relation.
The POSIX primitives are taken with their documented meaning: a thread suspended in
`pthread_cond_wait` resumes only after a signal, a broadcast or a spurious wake-up;
`pthread_cond_signal` resumes at most the thread it picks, `pthread_cond_broadcast`
every suspended thread; `pthread_join` returns only once the joined thread has ended. -/

/-- Where a worker thread is in `thread_worker`. -/
inductive WorkerPc where
  /-- About to run the critical section (line 88, or line 91 after a wake-up). -/
  | ready
  /-- Suspended in `pthread_cond_wait` (line 92). -/
  | blocked
  /-- Running the dequeued task outside the lock (line 109). -/
  | running (task : Option Task)
  /-- Left the loop at line 98 and ended at line 111. -/
  | exited
deriving DecidableEq

/-- Where the thread calling `destroy_thread_pool` is. -/
inductive DestroyPc where
  /-- The function has not been called. -/
  | idle
  /-- Lines 65-70 are done; the join loop (lines 73-75) is at index `i`. -/
  | joining (i : Nat)
  /-- Lines 77-79 are done: lock and condition destroyed, pool freed. -/
  | returned
deriving DecidableEq

/-- The pool, its `THREAD_POOL_SIZE` worker threads and the destroying thread. -/
structure World where
  pool : ThreadPool
  workers : Fin THREAD_POOL_SIZE → WorkerPc
  destroyer : DestroyPc

/-- What can happen next; producers are the `submit` events. -/
inductive Event where
  /-- A producer runs `add_task`; `pick` is the thread `pthread_cond_signal` resumes. -/
  | submit (function arg : Nat) (pick : Fin THREAD_POOL_SIZE)
  /-- Worker `i` takes its next step. -/
  | worker (i : Fin THREAD_POOL_SIZE)
  /-- Worker `i` wakes up spuriously. -/
  | wake (i : Fin THREAD_POOL_SIZE)
  /-- The destroying thread takes its next step. -/
  | destroy
deriving DecidableEq

/-- The effect of `pthread_cond_signal` when it picks worker `i`. -/
def wakeOne (workers : Fin THREAD_POOL_SIZE → WorkerPc) (i : Fin THREAD_POOL_SIZE) :
    Fin THREAD_POOL_SIZE → WorkerPc :=
  if workers i = WorkerPc.blocked then Function.update workers i WorkerPc.ready else workers

/-- The effect of `pthread_cond_broadcast`. -/
def wakeAll (workers : Fin THREAD_POOL_SIZE → WorkerPc) : Fin THREAD_POOL_SIZE → WorkerPc :=
  fun i => if workers i = WorkerPc.blocked then WorkerPc.ready else workers i

/-- After `create_thread_pool`: the four threads are created (lines 37-39). -/
def World.init : World :=
  { pool := create_thread_pool, workers := fun _ => WorkerPc.ready, destroyer := DestroyPc.idle }

/-- One event; `none` when the event cannot happen in this state (the thread is
suspended or ended, the join has to wait, the pool is already freed) or when the
operation is undefined. -/
def fire (w : World) : Event → Option World
  | Event.submit function arg pick =>
    if w.destroyer = DestroyPc.returned then none
    else
      match add_task w.pool function arg with
      | none => none
      | some r =>
        some
          { pool := r.pool
            workers := if r.signalled then wakeOne w.workers pick else w.workers
            destroyer := w.destroyer }
  | Event.worker i =>
    match w.workers i with
    | WorkerPc.ready =>
      match thread_worker w.pool with
      | none => none
      | some (WorkerStep.waiting, pool) =>
        some { pool := pool, workers := Function.update w.workers i WorkerPc.blocked,
               destroyer := w.destroyer }
      | some (WorkerStep.exited, pool) =>
        some { pool := pool, workers := Function.update w.workers i WorkerPc.exited,
               destroyer := w.destroyer }
      | some (WorkerStep.dequeued task, pool) =>
        some { pool := pool, workers := Function.update w.workers i (WorkerPc.running task),
               destroyer := w.destroyer }
    | WorkerPc.running _ =>
      some { pool := w.pool, workers := Function.update w.workers i WorkerPc.ready,
             destroyer := w.destroyer }
    | WorkerPc.blocked => none
    | WorkerPc.exited => none
  | Event.wake i =>
    match w.workers i with
    | WorkerPc.blocked =>
      some { pool := w.pool, workers := Function.update w.workers i WorkerPc.ready,
             destroyer := w.destroyer }
    | _ => none
  | Event.destroy =>
    match w.destroyer with
    | DestroyPc.idle =>
      some { pool := destroy_thread_pool w.pool, workers := wakeAll w.workers,
             destroyer := DestroyPc.joining 0 }
    | DestroyPc.joining i =>
      if h : i < THREAD_POOL_SIZE then
        if w.workers ⟨i, h⟩ = WorkerPc.exited then
          some { pool := w.pool, workers := w.workers, destroyer := DestroyPc.joining (i + 1) }
        else none
      else
        some { pool := w.pool, workers := w.workers, destroyer := DestroyPc.returned }
    | DestroyPc.returned => none

/-- An interleaving: a sequence of events, each possible when it happens. -/
def play (w : World) : List Event → Option World
  | [] => some w
  | e :: es =>
    match fire w e with
    | none => none
    | some w' => play w' es

/-- What holds in every state the threads can reach. -/
def WorldInv (w : World) : Prop :=
  RingInv w.pool ∧
  (w.destroyer = DestroyPc.idle → w.pool.shutdown = 0) ∧
  (w.destroyer ≠ DestroyPc.idle →
    w.pool.shutdown = 1 ∧ ∀ i, w.workers i ≠ WorkerPc.blocked) ∧
  (∀ k, w.destroyer = DestroyPc.joining k →
    k ≤ THREAD_POOL_SIZE ∧ ∀ i : Fin THREAD_POOL_SIZE, i.val < k → w.workers i = WorkerPc.exited) ∧
  (w.destroyer = DestroyPc.returned → ∀ i, w.workers i = WorkerPc.exited)

/-- An interleaving in which a task is submitted and run, the pool is destroyed while
another worker is suspended, and every worker ends before the joins complete. -/
def exampleEvents : List Event :=
  [Event.worker ⟨1, by decide⟩, Event.submit 1 2 ⟨1, by decide⟩, Event.worker ⟨0, by decide⟩,
    Event.destroy, Event.worker ⟨1, by decide⟩, Event.worker ⟨0, by decide⟩,
    Event.worker ⟨0, by decide⟩, Event.destroy, Event.worker ⟨2, by decide⟩,
    Event.worker ⟨3, by decide⟩, Event.destroy, Event.destroy, Event.destroy, Event.destroy]

end thread_pool

/-!
Object pools (`src/pool/c/object_pool.c` and `src/pool/java/object_pool2.c`).

Pointers are addresses (`0` is `NULL`).  The result of `malloc` is an argument of
`acquire_object`; what `free` is called on is recorded in the result of
`release_object`.  An access outside `objects` makes the function return `none`.
-/

namespace object_pool

/-- Number of slots: `#define POOL_SIZE 5` (line 4). -/
def POOL_SIZE : Nat := 5

/-- C struct `IntPool` (lines 6-9). -/
structure IntPool where
  objects : Fin POOL_SIZE → Nat
  index : Int

/-- C function `create_pool` (lines 11-18). -/
def create_pool : IntPool :=
  { objects := fun _ => 0, index := -1 }

/-- What `acquire_object` returns and leaves: the pointer, the pool, and whether the
pointer comes from `malloc` (line 25). -/
structure AcquireResult where
  obj : Nat
  pool : IntPool
  malloced : Bool

/-- C function `acquire_object` (lines 20-27); `fresh` is what `malloc` returns. -/
def acquire_object (pool : IntPool) (fresh : Nat) : Option AcquireResult :=
  if h0 : 0 ≤ pool.index then
    if h : pool.index < POOL_SIZE then
      some
        { obj := pool.objects ⟨pool.index.toNat, by omega⟩
          pool := { pool with index := pool.index - 1 }
          malloced := false }
    else
      none
  else
    some { obj := fresh, pool := pool, malloced := true }

/-- What `release_object` leaves: the pool and the pointer handed to `free`, if any. -/
structure ReleaseResult where
  pool : IntPool
  freed : Option Nat

/-- C function `release_object` (lines 29-36). -/
def release_object (pool : IntPool) (obj : Nat) : Option ReleaseResult :=
  if h1 : pool.index < (POOL_SIZE : Int) - 1 then
    if h : 0 ≤ pool.index + 1 then
      some
        { pool :=
            { objects := Function.update pool.objects ⟨(pool.index + 1).toNat, by omega⟩ obj
              index := pool.index + 1 }
          freed := none }
    else
      none
  else
    some { pool := pool, freed := some obj }

/-- The calls a client can make. -/
inductive Op where
  | acquire (fresh : Nat)
  | release (obj : Nat)
deriving DecidableEq

/-- The pool with the released-and-not-yet-reacquired objects, recorded from the calls
alone and not from what the pool does with them: `kept` lists, oldest first, the
objects handed to `release_object` (except those released while `POOL_SIZE` objects
were already listed, which a full pool cannot take) less the objects that
`acquire_object` has returned since. -/
structure Sys where
  pool : IntPool
  kept : List Nat

/-- The system after `create_pool`. -/
def Sys.init : Sys :=
  { pool := create_pool, kept := [] }

/-- One call.  The record `kept` follows the arguments and the returned pointer only:
a released object is added unless `POOL_SIZE` objects are already recorded, and the
pointer `acquire_object` returns is removed (it is not there when it comes from
`malloc`). -/
def step (s : Sys) : Op → Option Sys
  | Op.acquire fresh =>
    match acquire_object s.pool fresh with
    | none => none
    | some r => some { pool := r.pool, kept := s.kept.erase r.obj }
  | Op.release obj =>
    match release_object s.pool obj with
    | none => none
    | some r =>
      some
        { pool := r.pool
          kept := if s.kept.length < POOL_SIZE then s.kept ++ [obj] else s.kept }

/-- A sequence of calls. -/
def run (s : Sys) : List Op → Option Sys
  | [] => some s
  | op :: ops =>
    match step s op with
    | none => none
    | some s' => run s' ops

/-- The pointer in slot `i` (`0` outside the array). -/
def slot (pool : IntPool) (i : Nat) : Nat :=
  if h : i < POOL_SIZE then pool.objects ⟨i, h⟩ else 0

/-- The objects in slots `0 .. index`, bottom first. -/
def stored (pool : IntPool) : List Nat :=
  (List.range (pool.index + 1).toNat).map (slot pool)

/-- The bounds invariant. -/
def Bounds (pool : IntPool) : Prop :=
  -1 ≤ pool.index ∧ pool.index ≤ (POOL_SIZE : Int) - 1

instance (pool : IntPool) : Decidable (Bounds pool) := by
  unfold Bounds; infer_instance

/-- What the reachable states satisfy: the bounds, and slots `0 .. index` hold the
recorded objects. -/
def Inv (s : Sys) : Prop :=
  Bounds s.pool ∧ (stored s.pool).Perm s.kept

/-- Release the objects of a list one after the other. -/
def releaseAll (pool : IntPool) : List Nat → Option IntPool
  | [] => some pool
  | obj :: objs =>
    match release_object pool obj with
    | none => none
    | some r => releaseAll r.pool objs

/-- Call `acquire_object` `k` times; the pointers returned, first call first. -/
def acquireN (pool : IntPool) (fresh : Nat) : Nat → Option (List Nat × IntPool)
  | 0 => some ([], pool)
  | k + 1 =>
    match acquire_object pool fresh with
    | none => none
    | some r =>
      match acquireN r.pool fresh k with
      | none => none
      | some (objs, pool') => some (r.obj :: objs, pool')

/-- A pool holding two objects. -/
def examplePool : IntPool :=
  { objects := fun i => if i.val < 2 then 1000 + 8 * i.val else 0, index := 1 }

end object_pool

namespace object_pool2

/-- Number of slots: `#define POOL_SIZE 5` (line 5). -/
def POOL_SIZE : Nat := 5

/-- C struct `ObjectPool` (lines 12-15); a `MyObject*` is kept as its address. -/
structure ObjectPool where
  objects : Fin POOL_SIZE → Nat
  index : Int

/-- C function `create_pool` (lines 17-24). -/
def create_pool : ObjectPool :=
  { objects := fun _ => 0, index := -1 }

/-- What `acquire_object` returns and leaves: the pointer, the pool, and whether the
pointer comes from `malloc` (line 30). -/
structure AcquireResult where
  obj : Nat
  pool : ObjectPool
  malloced : Bool

/-- C function `acquire_object` (lines 26-32); `fresh` is what `malloc` returns. -/
def acquire_object (pool : ObjectPool) (fresh : Nat) : Option AcquireResult :=
  if h0 : 0 ≤ pool.index then
    if h : pool.index < POOL_SIZE then
      some
        { obj := pool.objects ⟨pool.index.toNat, by omega⟩
          pool := { pool with index := pool.index - 1 }
          malloced := false }
    else
      none
  else
    some { obj := fresh, pool := pool, malloced := true }

/-- What `release_object` leaves: the pool and the pointer handed to `free`, if any. -/
structure ReleaseResult where
  pool : ObjectPool
  freed : Option Nat

/-- C function `release_object` (lines 34-40). -/
def release_object (pool : ObjectPool) (obj : Nat) : Option ReleaseResult :=
  if h1 : pool.index < (POOL_SIZE : Int) - 1 then
    if h : 0 ≤ pool.index + 1 then
      some
        { pool :=
            { objects := Function.update pool.objects ⟨(pool.index + 1).toNat, by omega⟩ obj
              index := pool.index + 1 }
          freed := none }
    else
      none
  else
    some { pool := pool, freed := some obj }

/-- The calls a client can make. -/
inductive Op where
  | acquire (fresh : Nat)
  | release (obj : Nat)
deriving DecidableEq

/-- The pool with the released-and-not-yet-reacquired objects, recorded from the calls
alone and not from what the pool does with them: `kept` lists, oldest first, the
objects handed to `release_object` (except those released while `POOL_SIZE` objects
were already listed, which a full pool cannot take) less the objects that
`acquire_object` has returned since. -/
structure Sys where
  pool : ObjectPool
  kept : List Nat

/-- The system after `create_pool`. -/
def Sys.init : Sys :=
  { pool := create_pool, kept := [] }

/-- One call.  The record `kept` follows the arguments and the returned pointer only:
a released object is added unless `POOL_SIZE` objects are already recorded, and the
pointer `acquire_object` returns is removed (it is not there when it comes from
`malloc`). -/
def step (s : Sys) : Op → Option Sys
  | Op.acquire fresh =>
    match acquire_object s.pool fresh with
    | none => none
    | some r => some { pool := r.pool, kept := s.kept.erase r.obj }
  | Op.release obj =>
    match release_object s.pool obj with
    | none => none
    | some r =>
      some
        { pool := r.pool
          kept := if s.kept.length < POOL_SIZE then s.kept ++ [obj] else s.kept }

/-- A sequence of calls. -/
def run (s : Sys) : List Op → Option Sys
  | [] => some s
  | op :: ops =>
    match step s op with
    | none => none
    | some s' => run s' ops

/-- The pointer in slot `i` (`0` outside the array). -/
def slot (pool : ObjectPool) (i : Nat) : Nat :=
  if h : i < POOL_SIZE then pool.objects ⟨i, h⟩ else 0

/-- The objects in slots `0 .. index`, bottom first. -/
def stored (pool : ObjectPool) : List Nat :=
  (List.range (pool.index + 1).toNat).map (slot pool)

/-- The bounds invariant. -/
def Bounds (pool : ObjectPool) : Prop :=
  -1 ≤ pool.index ∧ pool.index ≤ (POOL_SIZE : Int) - 1

instance (pool : ObjectPool) : Decidable (Bounds pool) := by
  unfold Bounds; infer_instance

/-- What the reachable states satisfy: the bounds, and slots `0 .. index` hold the
recorded objects. -/
def Inv (s : Sys) : Prop :=
  Bounds s.pool ∧ (stored s.pool).Perm s.kept

/-- Release the objects of a list one after the other. -/
def releaseAll (pool : ObjectPool) : List Nat → Option ObjectPool
  | [] => some pool
  | obj :: objs =>
    match release_object pool obj with
    | none => none
    | some r => releaseAll r.pool objs

/-- Call `acquire_object` `k` times; the pointers returned, first call first. -/
def acquireN (pool : ObjectPool) (fresh : Nat) : Nat → Option (List Nat × ObjectPool)
  | 0 => some ([], pool)
  | k + 1 =>
    match acquire_object pool fresh with
    | none => none
    | some r =>
      match acquireN r.pool fresh k with
      | none => none
      | some (objs, pool') => some (r.obj :: objs, pool')

/-- A pool holding two objects. -/
def examplePool : ObjectPool :=
  { objects := fun i => if i.val < 2 then 1000 + 8 * i.val else 0, index := 1 }

end object_pool2

/-!
Connection pool (`src/pool/c/connection_pool.c`).

A connection is named by its position in `pool->connections`; the functions are the
critical sections run while `pool->lock` is held.  The lines written by `printf` are
not represented.
-/

namespace connection_pool

/-- Number of connections: `#define POOL_SIZE 3` (line 6). -/
def POOL_SIZE : Nat := 3

/-- C struct `Connection` (lines 8-11). -/
structure Connection where
  id : Int
  in_use : Int
deriving DecidableEq

/-- C struct `ConnectionPool` (lines 13-17) without `lock` and `available`; slot `i`
is the connection `pool->connections[i]` points to. -/
structure ConnectionPool where
  connections : Fin POOL_SIZE → Connection

/-- C function `create_connection_pool` (lines 20-32). -/
def create_connection_pool : ConnectionPool :=
  { connections := fun i => { id := i.val, in_use := 0 } }

/-- The `for` loop of lines 40-47 with `k` indices left, that is from
`i = POOL_SIZE - k` on: the first connection not in use is marked and returned;
`none` when the loop ends without a `return`. -/
def acquire_scan (pool : ConnectionPool) :
    (k : Nat) → k ≤ POOL_SIZE → Option (Fin POOL_SIZE × ConnectionPool)
  | 0, _ => none
  | k + 1, h =>
    if (pool.connections ⟨POOL_SIZE - (k + 1), by omega⟩).in_use = 0 then
      some
        (⟨POOL_SIZE - (k + 1), by omega⟩,
          { connections :=
              Function.update pool.connections ⟨POOL_SIZE - (k + 1), by omega⟩
                { pool.connections ⟨POOL_SIZE - (k + 1), by omega⟩ with in_use := 1 } })
    else
      acquire_scan pool k (Nat.le_of_succ_le h)

/-- C function `acquire_connection` (lines 35-51), one pass of the `while` loop under
the lock: `some (i, pool)` when connection `i` is returned, `none` when every
connection is in use and the thread suspends in `pthread_cond_wait` (line 49). -/
def acquire_connection (pool : ConnectionPool) : Option (Fin POOL_SIZE × ConnectionPool) :=
  acquire_scan pool POOL_SIZE (Nat.le_refl _)

/-- C function `release_connection` (lines 54-62) on the connection in slot `c`. -/
def release_connection (pool : ConnectionPool) (c : Fin POOL_SIZE) : ConnectionPool :=
  { connections := Function.update pool.connections c { pool.connections c with in_use := 0 } }

/-- The steps of the clients. -/
inductive Op where
  | acquire (client : Nat)
  | release (client : Nat) (c : Fin POOL_SIZE)
deriving DecidableEq

/-- The pool and, for each connection, the clients that got it from
`acquire_connection` and have not released it. -/
structure Sys where
  pool : ConnectionPool
  holders : Fin POOL_SIZE → List Nat

/-- The system after `create_connection_pool`. -/
def Sys.init : Sys :=
  { pool := create_connection_pool, holders := fun _ => [] }

/-- One step; a client that finds every connection in use stays suspended (the state
is unchanged), and `none` marks a release by a client that does not hold the
connection, which the clients never do. -/
def step (s : Sys) : Op → Option Sys
  | Op.acquire client =>
    match acquire_connection s.pool with
    | none => some s
    | some (i, pool) =>
      some { pool := pool, holders := Function.update s.holders i (client :: s.holders i) }
  | Op.release client c =>
    if client ∈ s.holders c then
      some
        { pool := release_connection s.pool c
          holders := Function.update s.holders c ((s.holders c).erase client) }
    else
      none

/-- A sequence of steps. -/
def run (s : Sys) : List Op → Option Sys
  | [] => some s
  | op :: ops =>
    match step s op with
    | none => none
    | some s' => run s' ops

/-- Number of connections held, counted per holder. -/
def held (s : Sys) : Nat :=
  ((List.finRange POOL_SIZE).map fun i => (s.holders i).length).sum

/-- What the reachable states satisfy: a connection is free and held by nobody, or in
use and held by exactly one client. -/
def Inv (s : Sys) : Prop :=
  ∀ i, ((s.pool.connections i).in_use = 0 ∧ s.holders i = []) ∨
    ((s.pool.connections i).in_use = 1 ∧ (s.holders i).length = 1)

/-- Five clients as in `main`: three get a connection, the fourth waits, the second
releases, the fourth gets the released connection. -/
def exampleOps : List Op :=
  [Op.acquire 1, Op.acquire 2, Op.acquire 3, Op.acquire 4, Op.release 2 ⟨1, by decide⟩,
    Op.acquire 4, Op.acquire 5]

end connection_pool

/-!
WASM exports (`src/wasm/compile_browser/main.c` and `src/wasm/compile_browser/c/main.c`).

An `int` is an `Int` in `-2^31 .. 2^31 - 1`; the subtraction of `compare` is taken
modulo `2^32`, as the WebAssembly `i32.sub` produced for it does.  The C library
function `qsort` is not part of the repository: it is taken to be a comparison sort
driven by the comparator, here insertion sort.
-/

namespace compile_browser

/-- A mathematical integer reduced to a signed 32-bit `int`. -/
def wrap32 (x : Int) : Int :=
  (x + 2147483648) % 4294967296 - 2147483648

/-- C function `compare` (lines 16-19) on the two `int`s the pointers refer to. -/
def compare (a b : Int) : Int :=
  wrap32 (a - b)

/-- Insertion into a list ordered according to `cmp`: `x` goes before the first `y`
with `cmp x y ≤ 0`. -/
def insert_by (cmp : Int → Int → Int) (x : Int) : List Int → List Int
  | [] => [x]
  | y :: ys => if cmp x y ≤ 0 then x :: y :: ys else y :: insert_by cmp x ys

/-- The C library function `qsort` as a comparison sort: insertion sort driven by
`cmp`. -/
def qsort (cmp : Int → Int → Int) : List Int → List Int
  | [] => []
  | x :: xs => insert_by cmp x (qsort cmp xs)

/-- C function `sort_array` (lines 21-25): `arr` is the memory `arr` points to, of
which the first `len` elements are sorted; `none` when `len` exceeds it. -/
def sort_array (arr : List Int) (len : Nat) : Option (List Int) :=
  if len ≤ arr.length then some (qsort compare (arr.take len) ++ arr.drop len) else none

end compile_browser

namespace compile_browser_c

/-- A mathematical integer reduced to a signed 32-bit `int`. -/
def wrap32 (x : Int) : Int :=
  (x + 2147483648) % 4294967296 - 2147483648

/-- C struct `array` (lines 12-19); `data` is `none` for a null pointer and otherwise
the `int`s it points to. -/
structure array where
  data : Option (List Int)
  offset : Int
  len : Int
  cap : Int
  flags : Nat
  element_size : Int
deriving DecidableEq

/-- C function `compare` (lines 43-46) on the two `int`s the pointers refer to. -/
def compare (a b : Int) : Int :=
  wrap32 (a - b)

/-- Insertion into a list ordered according to `cmp`: `x` goes before the first `y`
with `cmp x y ≤ 0`. -/
def insert_by (cmp : Int → Int → Int) (x : Int) : List Int → List Int
  | [] => [x]
  | y :: ys => if cmp x y ≤ 0 then x :: y :: ys else y :: insert_by cmp x ys

/-- The C library function `qsort` as a comparison sort: insertion sort driven by
`cmp`. -/
def qsort (cmp : Int → Int → Int) : List Int → List Int
  | [] => []
  | x :: xs => insert_by cmp x (qsort cmp xs)

/-- C function `sort_array` (lines 48-53); the argument is `none` for a null `arr`.
The result is the struct after the call, `none` when `len` is negative or exceeds the
memory behind `data`. -/
def sort_array (arr : Option array) : Option (Option array) :=
  match arr with
  | none => some none
  | some a =>
    match a.data with
    | none => some (some a)
    | some d =>
      if a.element_size ≠ 4 then some (some a)
      else if 0 ≤ a.len ∧ a.len.toNat ≤ d.length then
        some (some { a with
          data := some (qsort compare (d.take a.len.toNat) ++ d.drop a.len.toNat) })
      else none

/-- A two-element array struct holding `INT_MAX` and `-1`. -/
def exampleArray : array :=
  { data := some [2147483647, -1], offset := 0, len := 2, cap := 2, flags := 0,
    element_size := 4 }

end compile_browser_c

namespace thread_pool

/-! ## Helper lemmas -/

theorem add_task_enqueue_eq (pool : ThreadPool) (function arg : Nat)
    (hlt : pool.count < pool.queue_size)
    (h : 0 ≤ pool.tail ∧ pool.tail < TASK_QUEUE_SIZE ∧ pool.queue_size ≠ 0) :
    add_task pool function arg = some
      { ret := ()
        pool :=
          { pool with
            task_queue :=
              Function.update pool.task_queue
                ⟨pool.tail.toNat, by have := h.1; have := h.2.1; omega⟩
                (some { function := function, arg := arg })
            tail := Int.tmod (pool.tail + 1) pool.queue_size
            count := pool.count + 1 }
        stdout := []
        signalled := true } := by
  unfold add_task
  rw [if_pos hlt, dif_pos h]

theorem add_task_full_eq (pool : ThreadPool) (function arg : Nat)
    (hge : ¬ pool.count < pool.queue_size) :
    add_task pool function arg = some
      { ret := ()
        pool := pool
        stdout := ["Fila de tarefas cheia. Tarefa descartada.\n"]
        signalled := false } := by
  unfold add_task
  rw [if_neg hge]

theorem ringInv_tail_guard {pool : ThreadPool} (h : RingInv pool) :
    0 ≤ pool.tail ∧ pool.tail < TASK_QUEUE_SIZE ∧ pool.queue_size ≠ 0 := by
  obtain ⟨hq, _, _, _, _, h5, h6, _⟩ := h
  simp only [TASK_QUEUE_SIZE] at hq ⊢
  omega

theorem ringInv_head_guard {pool : ThreadPool} (h : RingInv pool) :
    0 ≤ pool.head ∧ pool.head < TASK_QUEUE_SIZE ∧ pool.queue_size ≠ 0
      ∧ INT_MIN < pool.count := by
  obtain ⟨hq, h1, _, h3, h4, _, _, _⟩ := h
  simp only [TASK_QUEUE_SIZE, INT_MIN] at hq ⊢
  omega

theorem tmod_succ_eq {x : Int} (h0 : 0 ≤ x) : Int.tmod (x + 1) 10 = (x + 1) % 10 :=
  Int.tmod_eq_emod (by omega) (by omega)

theorem ringInv_add {pool : ThreadPool} (h : RingInv pool)
    (hlt : pool.count < pool.queue_size) (q : Fin TASK_QUEUE_SIZE → Option Task) :
    RingInv { pool with
      task_queue := q
      tail := Int.tmod (pool.tail + 1) pool.queue_size
      count := pool.count + 1 } := by
  obtain ⟨tq, qs, hd, tl, ct, sd⟩ := pool
  simp only [RingInv, TASK_QUEUE_SIZE, Nat.cast_ofNat] at h hlt ⊢
  obtain ⟨hq, h1, h2, h3, h4, h5, h6, h7⟩ := h
  subst hq
  rw [tmod_succ_eq h5]
  omega

theorem ringInv_dequeue {pool : ThreadPool} (h : RingInv pool) (hpos : pool.count ≠ 0) :
    RingInv { pool with
      head := Int.tmod (pool.head + 1) pool.queue_size
      count := pool.count - 1 } := by
  obtain ⟨tq, qs, hd, tl, ct, sd⟩ := pool
  simp only [RingInv, TASK_QUEUE_SIZE, Nat.cast_ofNat] at h hpos ⊢
  obtain ⟨hq, h1, h2, h3, h4, h5, h6, h7⟩ := h
  subst hq
  rw [tmod_succ_eq h3]
  omega

theorem ringInv_destroy {pool : ThreadPool} (h : RingInv pool) :
    RingInv (destroy_thread_pool pool) := h


theorem contents_add {pool : ThreadPool} (h : RingInv pool)
    (hlt : pool.count < pool.queue_size) (t : Task) (k : Fin TASK_QUEUE_SIZE)
    (hk : (k.val : Int) = pool.tail) (tl' : Int) :
    contents { pool with
      task_queue := Function.update pool.task_queue k (some t)
      tail := tl'
      count := pool.count + 1 } = contents pool ++ [some t] := by
  obtain ⟨tq, qs, hd, tl, ct, sd⟩ := pool
  simp only [RingInv, TASK_QUEUE_SIZE, Nat.cast_ofNat] at h hlt hk
  obtain ⟨hq, h1, h2, h3, h4, h5, h6, h7⟩ := h
  subst hq
  have hn : (ct + 1).toNat = ct.toNat + 1 := by omega
  simp only [contents, hn, List.range_succ, List.map_append, List.map_cons, List.map_nil]
  congr 1
  · apply List.map_congr_left
    intro i hi
    have hi' : i < ct.toNat := List.mem_range.mp hi
    simp only [slotAt]
    apply Function.update_noteq
    intro he
    have hv := congrArg Fin.val he
    simp only [TASK_QUEUE_SIZE] at hv
    omega
  · simp only [slotAt]
    have : (⟨(hd.toNat + ct.toNat) % TASK_QUEUE_SIZE, Nat.mod_lt _ (by decide)⟩ :
        Fin TASK_QUEUE_SIZE) = k := by
      apply Fin.ext
      simp only [TASK_QUEUE_SIZE]
      omega
    rw [this, Function.update_same]

theorem contents_dequeue {pool : ThreadPool} (h : RingInv pool) (hpos : pool.count ≠ 0)
    (k : Fin TASK_QUEUE_SIZE) (hk : (k.val : Int) = pool.head) :
    contents pool = pool.task_queue k ::
      contents { pool with
        head := Int.tmod (pool.head + 1) pool.queue_size
        count := pool.count - 1 } := by
  obtain ⟨tq, qs, hd, tl, ct, sd⟩ := pool
  simp only [RingInv, TASK_QUEUE_SIZE, Nat.cast_ofNat] at h hpos hk
  obtain ⟨hq, h1, h2, h3, h4, h5, h6, h7⟩ := h
  subst hq
  have hn : ct.toNat = (ct - 1).toNat + 1 := by omega
  simp only [contents]
  rw [hn, List.range_succ_eq_map, List.map_cons, List.map_map, tmod_succ_eq h3]
  congr 1
  · simp only [slotAt]
    congr 1
    apply Fin.ext
    simp only [TASK_QUEUE_SIZE]
    omega
  · apply List.map_congr_left
    intro i _
    simp only [slotAt, Function.comp]
    congr 1
    apply Fin.ext
    simp only [TASK_QUEUE_SIZE]
    omega

theorem thread_worker_dequeue_eq (pool : ThreadPool) (hc : pool.count ≠ 0)
    (hs : pool.shutdown = 0)
    (h : 0 ≤ pool.head ∧ pool.head < TASK_QUEUE_SIZE ∧ pool.queue_size ≠ 0
      ∧ INT_MIN < pool.count) :
    thread_worker pool = some
      (WorkerStep.dequeued
          (pool.task_queue ⟨pool.head.toNat, by have := h.1; have := h.2.1; omega⟩),
        { pool with
          head := Int.tmod (pool.head + 1) pool.queue_size
          count := pool.count - 1 }) := by
  unfold thread_worker
  rw [if_neg (fun hw => hc hw.1), if_neg (fun hw => hw hs), dif_pos h]

theorem thread_worker_waiting_eq (pool : ThreadPool) (hc : pool.count = 0)
    (hs : pool.shutdown = 0) :
    thread_worker pool = some (WorkerStep.waiting, pool) := by
  unfold thread_worker
  rw [if_pos ⟨hc, hs⟩]

theorem thread_worker_exited_eq (pool : ThreadPool) (hs : pool.shutdown ≠ 0) :
    thread_worker pool = some (WorkerStep.exited, pool) := by
  unfold thread_worker
  rw [if_neg (fun hw => hs hw.2), if_pos hs]

theorem step_add_accept {s : Sys} (h : Good s) (function arg : Nat)
    (hlt : s.pool.count < s.pool.queue_size) :
    ∃ s', step s (Op.add function arg) = some s' ∧ Good s' ∧
      s'.accepted = s.accepted ++ [{ function := function, arg := arg }] ∧
      s'.dequeued = s.dequeued ∧
      contents s'.pool = contents s.pool ++ [some { function := function, arg := arg }] ∧
      s'.pool.count = s.pool.count + 1 ∧
      s'.pool.head = s.pool.head ∧
      s'.pool.shutdown = s.pool.shutdown := by
  have hg := ringInv_tail_guard h.1
  have hk : ((⟨s.pool.tail.toNat, by have := hg.1; have := hg.2.1; omega⟩ :
      Fin TASK_QUEUE_SIZE).val : Int) = s.pool.tail := Int.toNat_of_nonneg hg.1
  have hc := contents_add h.1 hlt { function := function, arg := arg } _ hk
    (Int.tmod (s.pool.tail + 1) s.pool.queue_size)
  refine ⟨{ pool :=
              { s.pool with
                task_queue :=
                  Function.update s.pool.task_queue
                    ⟨s.pool.tail.toNat, by have := hg.1; have := hg.2.1; omega⟩
                    (some { function := function, arg := arg })
                tail := Int.tmod (s.pool.tail + 1) s.pool.queue_size
                count := s.pool.count + 1 }
            accepted := s.accepted ++ [{ function := function, arg := arg }]
            dequeued := s.dequeued }, ?_, ⟨?_, ?_⟩, rfl, rfl, hc, rfl, rfl, rfl⟩
  · simp only [step, add_task_enqueue_eq s.pool function arg hlt hg, if_true]
  · exact ringInv_add h.1 hlt _
  · simp only [hc, List.map_append, List.map_cons, List.map_nil, ← h.2, List.append_assoc]

theorem step_add_reject (s : Sys) (function arg : Nat)
    (hge : ¬ s.pool.count < s.pool.queue_size) :
    step s (Op.add function arg) = some s := by
  simp [step, add_task_full_eq s.pool function arg hge]

theorem step_work_dequeue {s : Sys} (h : Good s) (hc : s.pool.count ≠ 0)
    (hs : s.pool.shutdown = 0) :
    ∃ s' task, step s Op.work = some s' ∧ Good s' ∧
      s'.accepted = s.accepted ∧
      s'.dequeued = s.dequeued ++ [task] ∧
      contents s.pool = task :: contents s'.pool ∧
      s'.pool.count = s.pool.count - 1 ∧
      s'.pool.tail = s.pool.tail ∧
      s'.pool.shutdown = s.pool.shutdown := by
  have hg := ringInv_head_guard h.1
  have hk : ((⟨s.pool.head.toNat, by have := hg.1; have := hg.2.1; omega⟩ :
      Fin TASK_QUEUE_SIZE).val : Int) = s.pool.head := Int.toNat_of_nonneg hg.1
  have hd := contents_dequeue h.1 hc _ hk
  refine ⟨{ pool :=
              { s.pool with
                head := Int.tmod (s.pool.head + 1) s.pool.queue_size
                count := s.pool.count - 1 }
            accepted := s.accepted
            dequeued := s.dequeued ++
              [s.pool.task_queue ⟨s.pool.head.toNat, by have := hg.1; have := hg.2.1; omega⟩] },
    _, ?_, ⟨?_, ?_⟩, rfl, rfl, hd, rfl, rfl, rfl⟩
  · simp only [step, thread_worker_dequeue_eq s.pool hc hs hg]
  · exact ringInv_dequeue h.1 hc
  · have h2 := h.2
    rw [hd] at h2
    simpa using h2

theorem step_work_idle (s : Sys) (hi : s.pool.count = 0 ∨ s.pool.shutdown ≠ 0) :
    step s Op.work = some s := by
  by_cases hs : s.pool.shutdown = 0
  · have hc : s.pool.count = 0 := hi.resolve_right (fun h => h hs)
    simp [step, thread_worker_waiting_eq s.pool hc hs]
  · simp [step, thread_worker_exited_eq s.pool hs]

theorem step_destroy_good {s : Sys} (h : Good s) :
    Good { pool := destroy_thread_pool s.pool, accepted := s.accepted, dequeued := s.dequeued } :=
  h

theorem step_good {s : Sys} (h : Good s) (op : Op) : ∃ s', step s op = some s' ∧ Good s' := by
  cases op with
  | add function arg =>
    by_cases hlt : s.pool.count < s.pool.queue_size
    · obtain ⟨s', h1, h2, _⟩ := step_add_accept h function arg hlt
      exact ⟨s', h1, h2⟩
    · exact ⟨s, step_add_reject s function arg hlt, h⟩
  | work =>
    by_cases hi : s.pool.count = 0 ∨ s.pool.shutdown ≠ 0
    · exact ⟨s, step_work_idle s hi, h⟩
    · obtain ⟨s', _, h1, h2, _⟩ := step_work_dequeue h (fun hc => hi (Or.inl hc))
        (by by_contra hs; exact hi (Or.inr hs))
      exact ⟨s', h1, h2⟩
  | destroy => exact ⟨_, rfl, step_destroy_good h⟩

theorem good_init : Good Sys.init := by
  refine ⟨by decide, ?_⟩
  rfl

theorem run_good {s : Sys} (h : Good s) (ops : List Op) :
    ∃ s', run s ops = some s' ∧ Good s' := by
  induction ops generalizing s with
  | nil => exact ⟨s, rfl, h⟩
  | cons op ops ih =>
    obtain ⟨s1, h1, hg1⟩ := step_good h op
    obtain ⟨s2, h2, hg2⟩ := ih hg1
    exact ⟨s2, by simp only [run, h1, h2], hg2⟩

/-! ## The claims -/

/-- C1: ring-buffer invariant.  From `create_thread_pool`, after every sequence of
`add_task` calls, worker critical sections and shutdown steps (in any interleaving) no
operation is undefined and the state satisfies `queue_size = TASK_QUEUE_SIZE = 10`,
`0 ≤ count ≤ queue_size`, `0 ≤ head < queue_size`, `0 ≤ tail < queue_size` and
`tail = (head + count) mod queue_size`; the queue never holds more than ten tasks. -/
theorem ring_invariant_reachable (ops : List Op) :
    ∃ s, run Sys.init ops = some s ∧
      s.pool.queue_size = TASK_QUEUE_SIZE ∧ TASK_QUEUE_SIZE = 10 ∧
      0 ≤ s.pool.count ∧ s.pool.count ≤ s.pool.queue_size ∧
      0 ≤ s.pool.head ∧ s.pool.head < s.pool.queue_size ∧
      0 ≤ s.pool.tail ∧ s.pool.tail < s.pool.queue_size ∧
      s.pool.tail = (s.pool.head + s.pool.count) % s.pool.queue_size ∧
      (contents s.pool).length ≤ TASK_QUEUE_SIZE := by
  obtain ⟨s, hrun, hinv, _⟩ := run_good good_init ops
  obtain ⟨hq, h1, h2, h3, h4, h5, h6, h7⟩ := hinv
  refine ⟨s, hrun, hq, rfl, h1, h2, h3, h4, h5, h6, h7, ?_⟩
  simp only [contents, List.length_map, List.length_range]
  omega

/-- C2: in a state satisfying the ring-buffer invariant `add_task` is defined and
enqueues the task iff `count < queue_size`.  When it does, the task is in the slot
indexed by the old `tail`, every other slot is unchanged, `tail` becomes
`(tail + 1) mod queue_size`, `count` grows by exactly one, and `head`, `shutdown` and
`queue_size` are unchanged; when it does not, the pool is unchanged. -/
theorem add_task_enqueues_iff_not_full (pool : ThreadPool) (h : RingInv pool)
    (function arg : Nat) :
    ∃ r, add_task pool function arg = some r ∧
      (r.signalled = true ↔ pool.count < pool.queue_size) ∧
      (r.pool.count = pool.count + 1 ↔ pool.count < pool.queue_size) ∧
      (pool.count < pool.queue_size →
        (∀ k : Fin TASK_QUEUE_SIZE, (k.val : Int) = pool.tail →
          r.pool.task_queue k = some { function := function, arg := arg }) ∧
        (∀ k : Fin TASK_QUEUE_SIZE, (k.val : Int) ≠ pool.tail →
          r.pool.task_queue k = pool.task_queue k) ∧
        r.pool.tail = (pool.tail + 1) % pool.queue_size ∧
        r.pool.head = pool.head ∧
        r.pool.shutdown = pool.shutdown ∧
        r.pool.queue_size = pool.queue_size) ∧
      (¬ pool.count < pool.queue_size → r.pool = pool) := by
  have hg := ringInv_tail_guard h
  have hq10 : pool.queue_size = 10 := by simpa [TASK_QUEUE_SIZE] using h.1
  by_cases hlt : pool.count < pool.queue_size
  · refine ⟨_, add_task_enqueue_eq pool function arg hlt hg, ?_, ?_, ?_, ?_⟩
    · simp [hlt]
    · simp [hlt]
    · intro _
      refine ⟨?_, ?_, ?_, rfl, rfl, rfl⟩
      · intro k hk
        have : k = ⟨pool.tail.toNat, by have := hg.1; have := hg.2.1; omega⟩ := by
          apply Fin.ext
          simp only
          omega
        rw [this]
        exact Function.update_same _ _ _
      · intro k hk
        apply Function.update_noteq
        intro he
        apply hk
        rw [he]
        exact Int.toNat_of_nonneg hg.1
      · show Int.tmod (pool.tail + 1) pool.queue_size = _
        rw [hq10]
        exact tmod_succ_eq hg.1
    · intro hn
      exact absurd hlt hn
  · refine ⟨_, add_task_full_eq pool function arg hlt, ?_, ?_, ?_, ?_⟩
    · simp [hlt]
    · simp only [hlt, iff_false]
      omega
    · intro hn
      exact absurd hn hlt
    · intro _
      rfl

/-- Witness of C2 on the freshly created pool. -/
theorem add_task_enqueues_iff_not_full_witness :
    RingInv create_thread_pool ∧
    ∃ r, add_task create_thread_pool 7 8 = some r ∧
      (r.signalled = true ↔ create_thread_pool.count < create_thread_pool.queue_size) ∧
      (r.pool.count = create_thread_pool.count + 1 ↔
        create_thread_pool.count < create_thread_pool.queue_size) ∧
      (create_thread_pool.count < create_thread_pool.queue_size →
        (∀ k : Fin TASK_QUEUE_SIZE, (k.val : Int) = create_thread_pool.tail →
          r.pool.task_queue k = some { function := 7, arg := 8 }) ∧
        (∀ k : Fin TASK_QUEUE_SIZE, (k.val : Int) ≠ create_thread_pool.tail →
          r.pool.task_queue k = create_thread_pool.task_queue k) ∧
        r.pool.tail = (create_thread_pool.tail + 1) % create_thread_pool.queue_size ∧
        r.pool.head = create_thread_pool.head ∧
        r.pool.shutdown = create_thread_pool.shutdown ∧
        r.pool.queue_size = create_thread_pool.queue_size) ∧
      (¬ create_thread_pool.count < create_thread_pool.queue_size →
        r.pool = create_thread_pool) :=
  ⟨by decide, add_task_enqueues_iff_not_full create_thread_pool (by decide) 7 8⟩

/-- C3: when the queue is full (`count = queue_size`) `add_task` is defined and
leaves the whole pool as it was: stored tasks, `head`, `tail`, `count`, `shutdown`
and `queue_size` are those of before the call, and no worker is signalled. -/
theorem add_task_full_no_effect (pool : ThreadPool) (hfull : pool.count = pool.queue_size)
    (function arg : Nat) :
    ∃ r, add_task pool function arg = some r ∧ r.pool = pool ∧
      r.pool.task_queue = pool.task_queue ∧ r.pool.head = pool.head ∧
      r.pool.tail = pool.tail ∧ r.pool.count = pool.count ∧
      r.pool.shutdown = pool.shutdown ∧ r.signalled = false :=
  ⟨_, add_task_full_eq pool function arg (by omega), rfl, rfl, rfl, rfl, rfl, rfl, rfl⟩

/-- Witness of C3 on a full pool. -/
theorem add_task_full_no_effect_witness :
    exampleFull.count = exampleFull.queue_size ∧
    ∃ r, add_task exampleFull 7 8 = some r ∧ r.pool = exampleFull ∧
      r.pool.task_queue = exampleFull.task_queue ∧ r.pool.head = exampleFull.head ∧
      r.pool.tail = exampleFull.tail ∧ r.pool.count = exampleFull.count ∧
      r.pool.shutdown = exampleFull.shutdown ∧ r.signalled = false :=
  ⟨by decide, add_task_full_no_effect exampleFull (by decide) 7 8⟩

theorem contents_length (pool : ThreadPool) : (contents pool).length = pool.count.toNat := by
  simp only [contents, List.length_map, List.length_range]

theorem sim_step {s : Sys} {q : ListQueue} (h : Sim s q) (op : Op) (hop : op ≠ Op.destroy) :
    ∃ s', step s op = some s' ∧ Sim s' (q.step op) := by
  obtain ⟨hg, hs, hc, ha, hd⟩ := h
  have hlen : q.queue.length = s.pool.count.toNat := by
    rw [← contents_length, hc, List.length_map]
  have hq10 : s.pool.queue_size = 10 := by simpa [TASK_QUEUE_SIZE] using hg.1.1
  have hc0 : 0 ≤ s.pool.count := hg.1.2.1
  cases op with
  | add function arg =>
    by_cases hlt : s.pool.count < s.pool.queue_size
    · obtain ⟨s', h1, h2, h3, h4, h5, _, _, h8⟩ := step_add_accept hg function arg hlt
      have hlt' : q.queue.length < TASK_QUEUE_SIZE := by
        simp only [TASK_QUEUE_SIZE]
        omega
      refine ⟨s', h1, h2, by rw [h8, hs], ?_, ?_, ?_⟩
      · simp only [ListQueue.step, if_pos hlt', h5, hc, List.map_append, List.map_cons,
          List.map_nil]
      · simp only [ListQueue.step, if_pos hlt', h3, ha]
      · simp only [ListQueue.step, if_pos hlt', h4, hd]
    · have hge : ¬ q.queue.length < TASK_QUEUE_SIZE := by
        simp only [TASK_QUEUE_SIZE]
        omega
      refine ⟨s, step_add_reject s function arg hlt, ?_⟩
      simp only [ListQueue.step, if_neg hge]
      exact ⟨hg, hs, hc, ha, hd⟩
  | work =>
    by_cases hz : s.pool.count = 0
    · have hnil : q.queue = [] := by
        apply List.eq_nil_of_length_eq_zero
        omega
      refine ⟨s, step_work_idle s (Or.inl hz), ?_⟩
      simp only [ListQueue.step, hnil]
      exact ⟨hg, hs, by rw [hc, hnil], ha, hd⟩
    · obtain ⟨s', task, h1, h2, h3, h4, h5, _, _, h8⟩ := step_work_dequeue hg hz hs
      cases hqq : q.queue with
      | nil =>
        rw [hqq] at hlen
        simp only [List.length_nil] at hlen
        omega
      | cons t rest =>
        rw [hc, hqq, List.map_cons] at h5
        obtain ⟨ht, hrest⟩ := List.cons.inj h5
        refine ⟨s', h1, h2, by rw [h8, hs], ?_, ?_, ?_⟩
        · simp only [ListQueue.step, hqq, hrest]
        · simp only [ListQueue.step, hqq, h3, ha]
        · simp only [ListQueue.step, hqq, h4, hd, ← ht, List.map_append, List.map_cons,
            List.map_nil]
  | destroy => exact absurd rfl hop

theorem sim_run {s : Sys} {q : ListQueue} (h : Sim s q) (ops : List Op)
    (hops : Op.destroy ∉ ops) :
    ∃ s', run s ops = some s' ∧ Sim s' (q.run ops) := by
  induction ops generalizing s q with
  | nil => exact ⟨s, rfl, h⟩
  | cons op ops ih =>
    have hop : op ≠ Op.destroy := fun he => hops (by simp [he])
    have hrest : Op.destroy ∉ ops := fun hm => hops (List.mem_cons_of_mem _ hm)
    obtain ⟨s1, h1, hs1⟩ := sim_step h op hop
    obtain ⟨s2, h2, hs2⟩ := ih hs1 hrest
    exact ⟨s2, by simp only [run, h1, h2], by simpa [ListQueue.run] using hs2⟩

theorem sim_init : Sim Sys.init ListQueue.empty :=
  ⟨good_init, rfl, rfl, rfl, rfl⟩

theorem good_fifo {s : Sys} (h : Good s) :
    s.dequeued <+: s.accepted.map some ∧
    (∀ k, k < s.dequeued.length → s.dequeued[k]? = (s.accepted[k]?).map some) ∧
    s.dequeued = (s.accepted.take s.dequeued.length).map some := by
  have h2 := h.2
  refine ⟨⟨contents s.pool, h2⟩, ?_, ?_⟩
  · intro k hk
    rw [← List.getElem?_map, ← h2, List.getElem?_append_left hk]
  · rw [List.map_take, ← h2, List.take_left]

/-- C4: FIFO service order.  For every sequence of `add_task` calls and worker
passes from a freshly created pool, without shutdown, no step is undefined, the
tasks taken out by the workers are a prefix of the accepted tasks (the k-th task
dequeued is the k-th task accepted), and the ring buffer is the list queue of the
specification: same queued tasks in the same order, same accepted and dequeued
histories, where an accepted task is appended at the back and a dequeue removes
the front. -/
theorem fifo_service_order (ops : List Op) (hops : Op.destroy ∉ ops) :
    ∃ s, run Sys.init ops = some s ∧
      s.dequeued <+: s.accepted.map some ∧
      (∀ k, k < s.dequeued.length → s.dequeued[k]? = (s.accepted[k]?).map some) ∧
      contents s.pool = ((ListQueue.empty).run ops).queue.map some ∧
      s.accepted = ((ListQueue.empty).run ops).accepted ∧
      s.dequeued = ((ListQueue.empty).run ops).dequeued.map some := by
  obtain ⟨s, hrun, hg, _, hc, ha, hd⟩ := sim_run sim_init ops hops
  obtain ⟨hp, hk, _⟩ := good_fifo hg
  exact ⟨s, hrun, hp, hk, hc, ha, hd⟩

/-- Witness of C4 on an interleaving of four submissions and four worker passes. -/
theorem fifo_service_order_witness :
    Op.destroy ∉ exampleOps ∧
    ∃ s, run Sys.init exampleOps = some s ∧
      s.dequeued <+: s.accepted.map some ∧
      (∀ k, k < s.dequeued.length → s.dequeued[k]? = (s.accepted[k]?).map some) ∧
      contents s.pool = ((ListQueue.empty).run exampleOps).queue.map some ∧
      s.accepted = ((ListQueue.empty).run exampleOps).accepted ∧
      s.dequeued = ((ListQueue.empty).run exampleOps).dequeued.map some :=
  ⟨by decide, fifo_service_order exampleOps (by decide)⟩

/-- Counterexample to C5: on the freshly created pool whose flag `destroy_thread_pool`
has just set, `add_task` enqueues the task: `count` goes from 0 to 1, `tail` from 0
to 1, slot 0 now holds the task, and a worker is signalled. -/
theorem add_task_after_shutdown_enqueues :
    (destroy_thread_pool create_thread_pool).shutdown = 1 ∧
    (destroy_thread_pool create_thread_pool).count = 0 ∧
    (destroy_thread_pool create_thread_pool).tail = 0 ∧
    (destroy_thread_pool create_thread_pool).task_queue ⟨0, by decide⟩ = none ∧
    Option.map (fun r => r.pool.count) (add_task (destroy_thread_pool create_thread_pool) 7 8)
      = some 1 ∧
    Option.map (fun r => r.pool.tail) (add_task (destroy_thread_pool create_thread_pool) 7 8)
      = some 1 ∧
    Option.map (fun r => r.pool.task_queue ⟨0, by decide⟩)
        (add_task (destroy_thread_pool create_thread_pool) 7 8)
      = some (some { function := 7, arg := 8 }) ∧
    Option.map AddTaskResult.signalled (add_task (destroy_thread_pool create_thread_pool) 7 8)
      = some true := by
  decide

/-- C5, amended: `add_task` never reads the shutdown flag.  In a state satisfying the
ring-buffer invariant with the flag set, `add_task` is defined, keeps the flag, and
leaves `count`, `tail` and the stored tasks unchanged exactly when the queue is full
(`count = queue_size`); when `count < queue_size` it enqueues the task as on a running
pool (stored at the old `tail`, `count + 1`, `tail` advanced, a worker signalled). -/
theorem add_task_after_shutdown (pool : ThreadPool) (h : RingInv pool)
    (hs : pool.shutdown ≠ 0) (function arg : Nat) :
    ∃ r, add_task pool function arg = some r ∧
      r.pool.shutdown = pool.shutdown ∧ r.pool.shutdown ≠ 0 ∧
      (pool.count = pool.queue_size →
        r.pool.count = pool.count ∧ r.pool.tail = pool.tail ∧
        r.pool.task_queue = pool.task_queue ∧ r.signalled = false) ∧
      (pool.count < pool.queue_size →
        r.pool.count = pool.count + 1 ∧
        r.pool.tail = (pool.tail + 1) % pool.queue_size ∧
        (∀ k : Fin TASK_QUEUE_SIZE, (k.val : Int) = pool.tail →
          r.pool.task_queue k = some { function := function, arg := arg }) ∧
        r.signalled = true) := by
  have hg := ringInv_tail_guard h
  have hq10 : pool.queue_size = 10 := by simpa [TASK_QUEUE_SIZE] using h.1
  by_cases hlt : pool.count < pool.queue_size
  · refine ⟨_, add_task_enqueue_eq pool function arg hlt hg, rfl, hs, ?_, ?_⟩
    · intro he
      omega
    · intro _
      refine ⟨rfl, ?_, ?_, rfl⟩
      · show Int.tmod (pool.tail + 1) pool.queue_size = _
        rw [hq10]
        exact tmod_succ_eq hg.1
      · intro k hk
        have : k = ⟨pool.tail.toNat, by have := hg.1; have := hg.2.1; omega⟩ := by
          apply Fin.ext
          simp only
          omega
        rw [this]
        exact Function.update_same _ _ _
  · refine ⟨_, add_task_full_eq pool function arg hlt, rfl, hs, ?_, ?_⟩
    · intro _
      exact ⟨rfl, rfl, rfl, rfl⟩
    · intro hn
      exact absurd hn hlt

/-- Witness of the amended C5 on the pool of `exampleShutdown` (three tasks queued,
flag set). -/
theorem add_task_after_shutdown_witness :
    RingInv exampleShutdown.pool ∧ exampleShutdown.pool.shutdown ≠ 0 ∧
    ∃ r, add_task exampleShutdown.pool 7 8 = some r ∧
      r.pool.shutdown = exampleShutdown.pool.shutdown ∧ r.pool.shutdown ≠ 0 ∧
      (exampleShutdown.pool.count = exampleShutdown.pool.queue_size →
        r.pool.count = exampleShutdown.pool.count ∧ r.pool.tail = exampleShutdown.pool.tail ∧
        r.pool.task_queue = exampleShutdown.pool.task_queue ∧ r.signalled = false) ∧
      (exampleShutdown.pool.count < exampleShutdown.pool.queue_size →
        r.pool.count = exampleShutdown.pool.count + 1 ∧
        r.pool.tail = (exampleShutdown.pool.tail + 1) % exampleShutdown.pool.queue_size ∧
        (∀ k : Fin TASK_QUEUE_SIZE, (k.val : Int) = exampleShutdown.pool.tail →
          r.pool.task_queue k = some { function := 7, arg := 8 }) ∧
        r.signalled = true) :=
  ⟨by decide, by decide, add_task_after_shutdown exampleShutdown.pool (by decide) (by decide) 7 8⟩

theorem contents_destroy (pool : ThreadPool) :
    contents (destroy_thread_pool pool) = contents pool := rfl

theorem step_after_shutdown {s : Sys} (h : Good s) (hs : s.pool.shutdown ≠ 0) (op : Op) :
    ∃ s', step s op = some s' ∧ Good s' ∧ s'.pool.shutdown ≠ 0 ∧
      s'.dequeued = s.dequeued ∧ s'.pool.head = s.pool.head ∧
      contents s.pool <+: contents s'.pool := by
  cases op with
  | add function arg =>
    by_cases hlt : s.pool.count < s.pool.queue_size
    · obtain ⟨s', h1, h2, _, h4, h5, _, h7, h8⟩ := step_add_accept h function arg hlt
      exact ⟨s', h1, h2, by rw [h8]; exact hs, h4, h7, by rw [h5]; exact List.prefix_append _ _⟩
    · exact ⟨s, step_add_reject s function arg hlt, h, hs, rfl, rfl, List.prefix_refl _⟩
  | work => exact ⟨s, step_work_idle s (Or.inr hs), h, hs, rfl, rfl, List.prefix_refl _⟩
  | destroy =>
    exact ⟨_, rfl, step_destroy_good h, by simp [destroy_thread_pool], rfl, rfl,
      List.prefix_refl _⟩

theorem run_after_shutdown {s : Sys} (h : Good s) (hs : s.pool.shutdown ≠ 0) (ops : List Op) :
    ∃ s', run s ops = some s' ∧ Good s' ∧ s'.pool.shutdown ≠ 0 ∧
      s'.dequeued = s.dequeued ∧ s'.pool.head = s.pool.head ∧
      contents s.pool <+: contents s'.pool := by
  induction ops generalizing s with
  | nil => exact ⟨s, rfl, h, hs, rfl, rfl, List.prefix_refl _⟩
  | cons op ops ih =>
    obtain ⟨s1, h1, hg1, hs1, hd1, hh1, hc1⟩ := step_after_shutdown h hs op
    obtain ⟨s2, h2, hg2, hs2, hd2, hh2, hc2⟩ := ih hg1 hs1
    exact ⟨s2, by simp only [run, h1, h2], hg2, hs2, hd2.trans hd1, hh2.trans hh1,
      hc1.trans hc2⟩

/-- C6: once the flag is set a worker never dequeues.  In every state with
`shutdown` set, one pass through the worker's critical section makes the worker leave
its loop and returns the pool unchanged (`head`, `tail`, `count` and the stored tasks),
whatever `count` is.  Hence, from a reachable-style state (ring-buffer invariant and
consistent history) with the flag set, after every further sequence of operations the
list of dequeued tasks and `head` are as they were and the tasks that were queued are
still at the front of the queue: none is handed to a worker. -/
theorem no_dequeue_after_shutdown (s : Sys) (hs : s.pool.shutdown ≠ 0) :
    thread_worker s.pool = some (WorkerStep.exited, s.pool) ∧
    step s Op.work = some s ∧
    (Good s → ∀ ops : List Op, ∃ s', run s ops = some s' ∧
      s'.pool.shutdown ≠ 0 ∧ s'.dequeued = s.dequeued ∧ s'.pool.head = s.pool.head ∧
      contents s.pool <+: contents s'.pool) := by
  refine ⟨thread_worker_exited_eq s.pool hs, step_work_idle s (Or.inr hs), ?_⟩
  intro hg ops
  obtain ⟨s', h1, _, h3, h4, h5, h6⟩ := run_after_shutdown hg hs ops
  exact ⟨s', h1, h3, h4, h5, h6⟩

/-- Witness of C6 on `exampleShutdown`, where three tasks are still queued. -/
theorem no_dequeue_after_shutdown_witness :
    exampleShutdown.pool.shutdown ≠ 0 ∧ 0 < exampleShutdown.pool.count ∧
    Good exampleShutdown ∧
    thread_worker exampleShutdown.pool = some (WorkerStep.exited, exampleShutdown.pool) ∧
    step exampleShutdown Op.work = some exampleShutdown ∧
    (∀ ops : List Op, ∃ s', run exampleShutdown ops = some s' ∧
      s'.pool.shutdown ≠ 0 ∧ s'.dequeued = exampleShutdown.dequeued ∧
      s'.pool.head = exampleShutdown.pool.head ∧
      contents exampleShutdown.pool <+: contents s'.pool) :=
  ⟨by decide, by decide, by decide,
    (no_dequeue_after_shutdown exampleShutdown (by decide)).1,
    (no_dequeue_after_shutdown exampleShutdown (by decide)).2.1,
    (no_dequeue_after_shutdown exampleShutdown (by decide)).2.2 (by decide)⟩

theorem step_shutdown_flag {s : Sys} (h : Good s) (op : Op) :
    ∃ s', step s op = some s' ∧ Good s' ∧
      (op ≠ Op.destroy → s'.pool.shutdown = s.pool.shutdown) ∧
      (op = Op.destroy → s'.pool.shutdown = 1) := by
  cases op with
  | add function arg =>
    by_cases hlt : s.pool.count < s.pool.queue_size
    · obtain ⟨s', h1, h2, _, _, _, _, _, h8⟩ := step_add_accept h function arg hlt
      exact ⟨s', h1, h2, fun _ => h8, fun he => by cases he⟩
    · exact ⟨s, step_add_reject s function arg hlt, h, fun _ => rfl, fun he => by cases he⟩
  | work =>
    by_cases hi : s.pool.count = 0 ∨ s.pool.shutdown ≠ 0
    · exact ⟨s, step_work_idle s hi, h, fun _ => rfl, fun he => by cases he⟩
    · obtain ⟨s', _, h1, h2, _, _, _, _, _, h8⟩ := step_work_dequeue h
        (fun hc => hi (Or.inl hc)) (by by_contra hs; exact hi (Or.inr hs))
      exact ⟨s', h1, h2, fun _ => h8, fun he => by cases he⟩
  | destroy => exact ⟨_, rfl, step_destroy_good h, fun hn => absurd rfl hn, fun _ => rfl⟩

theorem run_flag {s : Sys} (h : Good s) (hf : s.pool.shutdown = 0 ∨ s.pool.shutdown = 1)
    (ops : List Op) :
    ∃ s', run s ops = some s' ∧ Good s' ∧ (s'.pool.shutdown = 0 ∨ s'.pool.shutdown = 1) := by
  induction ops generalizing s with
  | nil => exact ⟨s, rfl, h, hf⟩
  | cons op ops ih =>
    obtain ⟨s1, h1, hg1, hne, heq⟩ := step_shutdown_flag h op
    have hf1 : s1.pool.shutdown = 0 ∨ s1.pool.shutdown = 1 := by
      by_cases hop : op = Op.destroy
      · exact Or.inr (heq hop)
      · rw [hne hop]
        exact hf
    obtain ⟨s2, h2, hg2, hf2⟩ := ih hg1 hf1
    exact ⟨s2, by simp only [run, h1, h2], hg2, hf2⟩

/-- C7: the shutdown flag is monotonic.  It is 0 in the state produced by
`create_thread_pool`; in every state reached from there it is 0 or 1, and every
operation is defined and keeps a set flag set; `add_task` and the worker pass leave
the flag as it is, and whenever an operation changes it, the operation is the
shutdown step of `destroy_thread_pool` and the change is from 0 to 1. -/
theorem shutdown_flag_monotonic :
    create_thread_pool.shutdown = 0 ∧
    ∀ ops : List Op, ∃ s, run Sys.init ops = some s ∧
      (s.pool.shutdown = 0 ∨ s.pool.shutdown = 1) ∧
      ∀ op : Op, ∃ s', step s op = some s' ∧
        (s.pool.shutdown ≠ 0 → s'.pool.shutdown ≠ 0) ∧
        (op ≠ Op.destroy → s'.pool.shutdown = s.pool.shutdown) ∧
        (s'.pool.shutdown ≠ s.pool.shutdown →
          op = Op.destroy ∧ s.pool.shutdown = 0 ∧ s'.pool.shutdown = 1) := by
  refine ⟨rfl, ?_⟩
  intro ops
  obtain ⟨s, hrun, hg, hf⟩ := run_flag good_init (Or.inl rfl) ops
  refine ⟨s, hrun, hf, ?_⟩
  intro op
  obtain ⟨s', h1, _, hne, heq⟩ := step_shutdown_flag hg op
  refine ⟨s', h1, ?_, hne, ?_⟩
  · intro hs
    by_cases hop : op = Op.destroy
    · rw [heq hop]
      decide
    · rw [hne hop]
      exact hs
  · intro hch
    by_cases hop : op = Op.destroy
    · refine ⟨hop, ?_, heq hop⟩
      rcases hf with h0 | h1'
      · exact h0
      · exact absurd ((heq hop).trans h1'.symm) hch
    · exact absurd (hne hop) hch

theorem run_append (s : Sys) (a b : List Op) :
    run s (a ++ b) = (run s a).bind (fun s' => run s' b) := by
  induction a generalizing s with
  | nil => rfl
  | cons op a ih =>
    simp only [List.cons_append, run]
    cases step s op with
    | none => rfl
    | some s1 => exact ih s1

theorem run_adds {s : Sys} (h : Good s) (ts : List Task)
    (hroom : s.pool.count + ts.length ≤ s.pool.queue_size) :
    ∃ s', run s (ts.map addOp) = some s' ∧ Good s' ∧
      s'.pool.count = s.pool.count + ts.length ∧
      s'.accepted = s.accepted ++ ts ∧
      contents s'.pool = contents s.pool ++ ts.map some ∧
      s'.dequeued = s.dequeued ∧
      s'.pool.queue_size = s.pool.queue_size := by
  induction ts generalizing s with
  | nil => exact ⟨s, rfl, h, by simp, by simp, by simp, rfl, rfl⟩
  | cons t ts ih =>
    simp only [List.length_cons, Nat.cast_add, Nat.cast_one] at hroom
    have hlt : s.pool.count < s.pool.queue_size := by omega
    obtain ⟨s1, h1, hg1, ha1, hd1, hc1, hn1, _, _⟩ := step_add_accept h t.function t.arg hlt
    have hq1 : s1.pool.queue_size = s.pool.queue_size := by
      rw [hg1.1.1, h.1.1]
    obtain ⟨s2, h2, hg2, hn2, ha2, hc2, hd2, hq2⟩ := ih hg1 (by rw [hn1, hq1]; omega)
    refine ⟨s2, ?_, hg2, ?_, ?_, ?_, hd2.trans hd1, hq2.trans hq1⟩
    · simp only [List.map_cons, run, addOp, h1]
      exact h2
    · rw [hn2, hn1]
      simp only [List.length_cons, Nat.cast_add, Nat.cast_one]
      omega
    · rw [ha2, ha1]
      simp
    · rw [hc2, hc1]
      simp

/-- C8: capacity scenario.  From a freshly created pool and with no worker pass in
between, for any ten tasks the first `k` submissions (`k ≤ 10`) are all accepted and
leave `count = k` with the queue holding those `k` tasks in submission order; after
the ten, `count = queue_size = 10`, and an eleventh `add_task` is rejected: it signals
no worker and leaves the pool, hence `count` and the queue contents, unchanged. -/
theorem capacity_scenario (ts : List Task) (hlen : ts.length = TASK_QUEUE_SIZE) (t : Task) :
    (∀ k : Nat, k ≤ TASK_QUEUE_SIZE →
      ∃ sk, run Sys.init ((ts.take k).map addOp) = some sk ∧
        sk.pool.count = k ∧ sk.accepted = ts.take k ∧
        contents sk.pool = (ts.take k).map some) ∧
    ∃ s, run Sys.init (ts.map addOp) = some s ∧
      s.pool.count = s.pool.queue_size ∧ s.pool.queue_size = 10 ∧
      s.accepted = ts ∧ contents s.pool = ts.map some ∧
      run Sys.init ((ts ++ [t]).map addOp) = some s ∧
      ∃ r, add_task s.pool t.function t.arg = some r ∧
        r.signalled = false ∧ r.pool = s.pool ∧
        r.pool.count = 10 ∧ contents r.pool = ts.map some := by
  have hinit : Sys.init.pool.count = 0 := rfl
  have hq : Sys.init.pool.queue_size = 10 := rfl
  have hlen10 : ts.length = 10 := hlen
  constructor
  · intro k hk
    have hk10 : k ≤ 10 := hk
    have hlk : (ts.take k).length = k := by
      rw [List.length_take]
      omega
    obtain ⟨sk, h1, _, h3, h4, h5, _, _⟩ := run_adds good_init (ts.take k)
      (by rw [hinit, hq, hlk]; omega)
    refine ⟨sk, h1, ?_, ?_, ?_⟩
    · rw [h3, hinit, hlk]
      omega
    · rw [h4]
      rfl
    · rw [h5]
      rfl
  · obtain ⟨s, h1, hg, h3, h4, h5, _, h7⟩ := run_adds good_init ts
      (by rw [hinit, hq, hlen10]; omega)
    have hcnt : s.pool.count = 10 := by
      rw [h3, hinit, hlen10]
      rfl
    have hfull : ¬ s.pool.count < s.pool.queue_size := by
      rw [h7, hq, hcnt]
      decide
    have hcont : contents s.pool = ts.map some := by
      rw [h5]
      rfl
    refine ⟨s, h1, by rw [hcnt, h7, hq], by rw [h7, hq], by rw [h4]; rfl, hcont, ?_,
      _, add_task_full_eq s.pool t.function t.arg hfull, rfl, rfl, hcnt, hcont⟩
    rw [List.map_append, run_append, h1]
    show run s [addOp t] = some s
    simp only [run, addOp, step_add_reject s t.function t.arg hfull]

/-- Witness of C8 on the ten tasks of `exampleTasks` and an eleventh one. -/
theorem capacity_scenario_witness :
    exampleTasks.length = TASK_QUEUE_SIZE ∧
    (∀ k : Nat, k ≤ TASK_QUEUE_SIZE →
      ∃ sk, run Sys.init ((exampleTasks.take k).map addOp) = some sk ∧
        sk.pool.count = k ∧ sk.accepted = exampleTasks.take k ∧
        contents sk.pool = (exampleTasks.take k).map some) ∧
    ∃ s, run Sys.init (exampleTasks.map addOp) = some s ∧
      s.pool.count = s.pool.queue_size ∧ s.pool.queue_size = 10 ∧
      s.accepted = exampleTasks ∧ contents s.pool = exampleTasks.map some ∧
      run Sys.init ((exampleTasks ++ [({ function := 4096, arg := 8232 } : Task)]).map addOp)
        = some s ∧
      ∃ r, add_task s.pool 4096 8232 = some r ∧
        r.signalled = false ∧ r.pool = s.pool ∧
        r.pool.count = 10 ∧ contents r.pool = exampleTasks.map some :=
  ⟨by decide, capacity_scenario exampleTasks (by decide) { function := 4096, arg := 8232 }⟩

/-- C9: exactly-once service.  After every sequence of operations from a freshly
created pool (in particular every sequence of `add_task` calls and worker passes
without shutdown) no step is undefined, the number of accepted tasks is the number of
dequeued tasks plus `count`, the dequeued tasks are the first accepted ones in order,
so that no task is dequeued more often than it was accepted, and whenever `count` is 0
the dequeued tasks are exactly the accepted tasks, each handed out once. -/
theorem exactly_once_service (ops : List Op) :
    ∃ s, run Sys.init ops = some s ∧
      (s.accepted.length : Int) = s.dequeued.length + s.pool.count ∧
      s.dequeued = (s.accepted.take s.dequeued.length).map some ∧
      (∀ t : Task, s.dequeued.countP (fun x => decide (x = some t))
        ≤ s.accepted.countP (fun x => decide (x = t))) ∧
      (s.pool.count = 0 →
        s.dequeued = s.accepted.map some ∧
        ∀ t : Task, s.dequeued.countP (fun x => decide (x = some t))
          = s.accepted.countP (fun x => decide (x = t))) := by
  obtain ⟨s, hrun, hg⟩ := run_good good_init ops
  obtain ⟨_, _, htake⟩ := good_fifo hg
  have h2 := hg.2
  have hc0 : 0 ≤ s.pool.count := hg.1.2.1
  have hcount : ∀ t : Task,
      s.dequeued.countP (fun x => decide (x = some t))
        + (contents s.pool).countP (fun x => decide (x = some t))
      = s.accepted.countP (fun x => decide (x = t)) := by
    intro t
    rw [← List.countP_append, h2, List.countP_map]
    apply List.countP_congr
    intro x _
    simp
  refine ⟨s, hrun, ?_, htake, ?_, ?_⟩
  · have hl := congrArg List.length h2
    rw [List.length_append, List.length_map, contents_length] at hl
    omega
  · intro t
    have := hcount t
    omega
  · intro hz
    have hnil : contents s.pool = [] := by
      apply List.eq_nil_of_length_eq_zero
      rw [contents_length, hz]
      rfl
    rw [hnil, List.append_nil] at h2
    refine ⟨h2, ?_⟩
    intro t
    have := hcount t
    rw [hnil] at this
    simpa using this

/-- Counterexample to C10: the value `add_task` hands back is the same whether the
task was accepted (fresh pool) or rejected because the queue is full (`exampleFull`);
and with the flag set (`exampleShutdown`) the task is accepted, nothing is printed,
and a full queue with the flag set prints the same line as a full running queue. -/
theorem add_task_returns_no_outcome :
    Option.map AddTaskResult.ret (add_task create_thread_pool 7 8)
      = Option.map AddTaskResult.ret (add_task exampleFull 7 8) ∧
    Option.map AddTaskResult.signalled (add_task create_thread_pool 7 8) = some true ∧
    Option.map AddTaskResult.signalled (add_task exampleFull 7 8) = some false ∧
    exampleShutdown.pool.shutdown = 1 ∧
    Option.map AddTaskResult.ret (add_task exampleShutdown.pool 7 8)
      = Option.map AddTaskResult.ret (add_task create_thread_pool 7 8) ∧
    Option.map AddTaskResult.signalled (add_task exampleShutdown.pool 7 8) = some true ∧
    Option.map AddTaskResult.stdout (add_task exampleShutdown.pool 7 8) = some [] ∧
    Option.map AddTaskResult.stdout (add_task (destroy_thread_pool exampleFull) 7 8)
      = Option.map AddTaskResult.stdout (add_task exampleFull 7 8) := by
  refine ⟨rfl, rfl, rfl, rfl, rfl, rfl, rfl, rfl⟩

/-- C10, amended: `add_task` hands nothing back to its caller; the outcome shows only
on standard output.  In a state satisfying the ring-buffer invariant `add_task` is
defined, prints nothing exactly when it accepts the task (`count < queue_size`) and
prints the line "Fila de tarefas cheia. Tarefa descartada." exactly when it rejects
the task because the queue is full (`count = queue_size`); the value of the shutdown
flag changes neither the acceptance nor what is printed, so there is no outcome for a
pool that is not running. -/
theorem add_task_outcome_on_stdout (pool : ThreadPool) (h : RingInv pool)
    (function arg : Nat) :
    ∃ r, add_task pool function arg = some r ∧
      (r.stdout = [] ↔ pool.count < pool.queue_size) ∧
      (r.stdout = ["Fila de tarefas cheia. Tarefa descartada.\n"]
        ↔ pool.count = pool.queue_size) ∧
      (r.signalled = true ↔ pool.count < pool.queue_size) ∧
      ∀ flag : Int,
        Option.map AddTaskResult.stdout (add_task { pool with shutdown := flag } function arg)
          = some r.stdout ∧
        Option.map AddTaskResult.signalled
            (add_task { pool with shutdown := flag } function arg)
          = some r.signalled ∧
        Option.map AddTaskResult.ret (add_task { pool with shutdown := flag } function arg)
          = some r.ret := by
  have hg := ringInv_tail_guard h
  have hle : pool.count ≤ pool.queue_size := h.2.2.1
  by_cases hlt : pool.count < pool.queue_size
  · refine ⟨_, add_task_enqueue_eq pool function arg hlt hg, ?_, ?_, ?_, ?_⟩
    · simp [hlt]
    · simp only [List.nil_eq, List.cons_ne_nil, false_iff]
      omega
    · simp [hlt]
    · intro flag
      rw [add_task_enqueue_eq { pool with shutdown := flag } function arg hlt hg]
      exact ⟨rfl, rfl, rfl⟩
  · refine ⟨_, add_task_full_eq pool function arg hlt, ?_, ?_, ?_, ?_⟩
    · simp [hlt]
    · simp only [true_iff]
      omega
    · simp [hlt]
    · intro flag
      rw [add_task_full_eq { pool with shutdown := flag } function arg hlt]
      exact ⟨rfl, rfl, rfl⟩

/-- Witness of the amended C10 on the freshly created pool. -/
theorem add_task_outcome_on_stdout_witness :
    RingInv create_thread_pool ∧
    ∃ r, add_task create_thread_pool 7 8 = some r ∧
      (r.stdout = [] ↔ create_thread_pool.count < create_thread_pool.queue_size) ∧
      (r.stdout = ["Fila de tarefas cheia. Tarefa descartada.\n"]
        ↔ create_thread_pool.count = create_thread_pool.queue_size) ∧
      (r.signalled = true ↔ create_thread_pool.count < create_thread_pool.queue_size) ∧
      ∀ flag : Int,
        Option.map AddTaskResult.stdout
            (add_task { create_thread_pool with shutdown := flag } 7 8)
          = some r.stdout ∧
        Option.map AddTaskResult.signalled
            (add_task { create_thread_pool with shutdown := flag } 7 8)
          = some r.signalled ∧
        Option.map AddTaskResult.ret
            (add_task { create_thread_pool with shutdown := flag } 7 8)
          = some r.ret :=
  ⟨by decide, add_task_outcome_on_stdout create_thread_pool (by decide) 7 8⟩

/-- C13: a worker dequeues only from a non-empty queue.  In every state the pass
through the critical section ends in the wait exactly when `count = 0` and the flag is
not set, and it reaches the dequeue branch only with `count ≠ 0` and `shutdown = 0`.
In every state reached from `create_thread_pool` the dequeue branch is reached only
with `count > 0`; and when `count > 0` and `shutdown = 0` the pass is defined, reads
the slot at `head` (an index of the array), which holds a task accepted earlier by
`add_task` (the oldest not yet dequeued), sets `head` to `(head + 1) mod queue_size`,
decreases `count` by exactly one and leaves `tail`, `shutdown`, `queue_size` and the
slots unchanged. -/
theorem worker_dequeues_only_nonempty :
    (∀ pool : ThreadPool,
      ((∃ p, thread_worker pool = some (WorkerStep.waiting, p))
        ↔ pool.count = 0 ∧ pool.shutdown = 0) ∧
      (∀ task p, thread_worker pool = some (WorkerStep.dequeued task, p) →
        pool.count ≠ 0 ∧ pool.shutdown = 0)) ∧
    ∀ ops : List Op, ∃ s, run Sys.init ops = some s ∧
      (∀ task p, thread_worker s.pool = some (WorkerStep.dequeued task, p) →
        0 < s.pool.count ∧ s.pool.shutdown = 0) ∧
      (0 < s.pool.count → s.pool.shutdown = 0 →
        ∃ (k : Fin TASK_QUEUE_SIZE) (t : Task) (p : ThreadPool),
          (k.val : Int) = s.pool.head ∧
          s.pool.task_queue k = some t ∧
          s.accepted[s.dequeued.length]? = some t ∧
          thread_worker s.pool = some (WorkerStep.dequeued (some t), p) ∧
          p.head = (s.pool.head + 1) % s.pool.queue_size ∧
          p.count = s.pool.count - 1 ∧
          p.tail = s.pool.tail ∧
          p.shutdown = s.pool.shutdown ∧
          p.queue_size = s.pool.queue_size ∧
          p.task_queue = s.pool.task_queue) := by
  have hbranch : ∀ pool : ThreadPool, ∀ task p,
      thread_worker pool = some (WorkerStep.dequeued task, p) →
      pool.count ≠ 0 ∧ pool.shutdown = 0 := by
    intro pool task p hw
    by_cases hs : pool.shutdown = 0
    · by_cases hc : pool.count = 0
      · rw [thread_worker_waiting_eq pool hc hs] at hw
        simp at hw
      · exact ⟨hc, hs⟩
    · rw [thread_worker_exited_eq pool hs] at hw
      simp at hw
  refine ⟨fun pool => ⟨⟨?_, ?_⟩, hbranch pool⟩, ?_⟩
  · rintro ⟨p, hw⟩
    by_cases hs : pool.shutdown = 0
    · by_cases hc : pool.count = 0
      · exact ⟨hc, hs⟩
      · unfold thread_worker at hw
        rw [if_neg (fun hw' => hc hw'.1), if_neg (fun hw' => hw' hs)] at hw
        split at hw <;> simp at hw
    · rw [thread_worker_exited_eq pool hs] at hw
      simp at hw
  · rintro ⟨hc, hs⟩
    exact ⟨pool, thread_worker_waiting_eq pool hc hs⟩
  · intro ops
    obtain ⟨s, hrun, hg⟩ := run_good good_init ops
    have hc0 : 0 ≤ s.pool.count := hg.1.2.1
    refine ⟨s, hrun, ?_, ?_⟩
    · intro task p hw
      obtain ⟨hne, hs⟩ := hbranch s.pool task p hw
      exact ⟨by omega, hs⟩
    · intro hpos hs
      have hne : s.pool.count ≠ 0 := by omega
      have hgd := ringInv_head_guard hg.1
      have hq10 : s.pool.queue_size = 10 := by simpa [TASK_QUEUE_SIZE] using hg.1.1
      have hk : ((⟨s.pool.head.toNat, by have := hgd.1; have := hgd.2.1; omega⟩ :
          Fin TASK_QUEUE_SIZE).val : Int) = s.pool.head := Int.toNat_of_nonneg hgd.1
      have hd := contents_dequeue hg.1 hne _ hk
      have h2 := hg.2
      rw [hd] at h2
      have hget : (s.accepted.map some)[s.dequeued.length]?
          = some (s.pool.task_queue ⟨s.pool.head.toNat,
              by have := hgd.1; have := hgd.2.1; omega⟩) := by
        rw [← h2, List.getElem?_append_right (Nat.le_refl _)]
        simp
      rw [List.getElem?_map] at hget
      cases hacc : s.accepted[s.dequeued.length]? with
      | none =>
        rw [hacc] at hget
        simp at hget
      | some t =>
        rw [hacc] at hget
        simp only [Option.map_some', Option.some.injEq] at hget
        refine ⟨_, t,
          { s.pool with
            head := Int.tmod (s.pool.head + 1) s.pool.queue_size
            count := s.pool.count - 1 },
          hk, hget.symm, rfl, ?_, ?_, rfl, rfl, rfl, rfl, rfl⟩
        · rw [thread_worker_dequeue_eq s.pool hne hs hgd, ← hget]
        · show Int.tmod (s.pool.head + 1) s.pool.queue_size = _
          rw [hq10]
          exact tmod_succ_eq hgd.1

theorem wakeOne_apply (ws : Fin THREAD_POOL_SIZE → WorkerPc) (k i : Fin THREAD_POOL_SIZE) :
    wakeOne ws k i = ws i ∨ (ws i = WorkerPc.blocked ∧ wakeOne ws k i = WorkerPc.ready) := by
  unfold wakeOne
  by_cases hb : ws k = WorkerPc.blocked
  · rw [if_pos hb]
    by_cases hik : i = k
    · subst hik
      exact Or.inr ⟨hb, Function.update_same _ _ _⟩
    · exact Or.inl (Function.update_noteq hik _ _)
  · rw [if_neg hb]
    exact Or.inl rfl

theorem update_apply_cases (ws : Fin THREAD_POOL_SIZE → WorkerPc) (k i : Fin THREAD_POOL_SIZE)
    (v : WorkerPc) :
    (i = k ∧ Function.update ws k v i = v) ∨ (i ≠ k ∧ Function.update ws k v i = ws i) := by
  by_cases hik : i = k
  · subst hik
    exact Or.inl ⟨rfl, Function.update_same _ _ _⟩
  · exact Or.inr ⟨hik, Function.update_noteq hik _ _⟩

/-- The invariant survives a change of the pool that keeps the ring-buffer invariant
and the flag, and a change of the workers that neither suspends a worker while the
pool is being destroyed nor revives an ended one. -/
theorem worldInv_of {w : World} (h : WorldInv w) (pool : ThreadPool)
    (ws : Fin THREAD_POOL_SIZE → WorkerPc) (hr : RingInv pool)
    (hs : pool.shutdown = w.pool.shutdown)
    (hb : ∀ i, ws i = WorkerPc.blocked → w.workers i = WorkerPc.blocked ∨ w.pool.shutdown = 0)
    (he : ∀ i, w.workers i = WorkerPc.exited → ws i = WorkerPc.exited) :
    WorldInv { pool := pool, workers := ws, destroyer := w.destroyer } := by
  obtain ⟨_, h1, h2, h3, h4⟩ := h
  refine ⟨hr, ?_, ?_, ?_, ?_⟩
  · intro hd
    show pool.shutdown = 0
    rw [hs]
    exact h1 hd
  · intro hd
    obtain ⟨hs1, hnb⟩ := h2 hd
    refine ⟨hs.trans hs1, ?_⟩
    intro i hbi
    rcases hb i hbi with hw | h0
    · exact hnb i hw
    · rw [hs1] at h0
      exact absurd h0 (by decide)
  · intro k hk
    obtain ⟨hle, hex⟩ := h3 k hk
    exact ⟨hle, fun i hi => he i (hex i hi)⟩
  · intro hd i
    exact he i (h4 hd i)

theorem fire_inv {w w' : World} (h : WorldInv w) (e : Event) (hf : fire w e = some w') :
    WorldInv w' := by
  cases e with
  | submit function arg pick =>
    simp only [fire] at hf
    split at hf
    · simp at hf
    · by_cases hlt : w.pool.count < w.pool.queue_size
      · rw [add_task_enqueue_eq w.pool function arg hlt (ringInv_tail_guard h.1)] at hf
        simp only [Option.some.injEq, if_true] at hf
        subst hf
        refine worldInv_of h _ _ (ringInv_add h.1 hlt _) rfl ?_ ?_
        · intro i hbi
          rcases wakeOne_apply w.workers pick i with heq | ⟨_, hr⟩
          · exact Or.inl (heq ▸ hbi)
          · rw [hr] at hbi
            cases hbi
        · intro i hei
          rcases wakeOne_apply w.workers pick i with heq | ⟨hb, _⟩
          · rw [heq]
            exact hei
          · rw [hei] at hb
            cases hb
      · rw [add_task_full_eq w.pool function arg hlt] at hf
        simp only [Option.some.injEq] at hf
        subst hf
        exact worldInv_of h _ _ h.1 rfl (fun i hbi => Or.inl hbi) (fun i hei => hei)
  | worker i =>
    simp only [fire] at hf
    cases hwi : w.workers i with
    | blocked => simp [hwi] at hf
    | exited => simp [hwi] at hf
    | running task =>
      simp only [hwi, Option.some.injEq] at hf
      subst hf
      refine worldInv_of h _ _ h.1 rfl ?_ ?_
      · intro j hbj
        rcases update_apply_cases w.workers i j WorkerPc.ready with ⟨_, hv⟩ | ⟨_, hv⟩
        · rw [hv] at hbj
          cases hbj
        · exact Or.inl (hv ▸ hbj)
      · intro j hej
        rcases update_apply_cases w.workers i j WorkerPc.ready with ⟨hji, _⟩ | ⟨_, hv⟩
        · subst hji
          rw [hwi] at hej
          cases hej
        · rw [hv]
          exact hej
    | ready =>
      simp only [hwi] at hf
      by_cases hs : w.pool.shutdown = 0
      · by_cases hc : w.pool.count = 0
        · rw [thread_worker_waiting_eq w.pool hc hs] at hf
          simp only [Option.some.injEq] at hf
          subst hf
          refine worldInv_of h _ _ h.1 rfl (fun j _ => Or.inr hs) ?_
          intro j hej
          rcases update_apply_cases w.workers i j WorkerPc.blocked with ⟨hji, _⟩ | ⟨_, hv⟩
          · subst hji
            rw [hwi] at hej
            cases hej
          · rw [hv]
            exact hej
        · rw [thread_worker_dequeue_eq w.pool hc hs (ringInv_head_guard h.1)] at hf
          simp only [Option.some.injEq] at hf
          subst hf
          refine worldInv_of h _ _ (ringInv_dequeue h.1 hc) rfl (fun j _ => Or.inr hs) ?_
          intro j hej
          rcases update_apply_cases w.workers i j (WorkerPc.running _) with ⟨hji, _⟩ | ⟨_, hv⟩
          · subst hji
            rw [hwi] at hej
            cases hej
          · rw [hv]
            exact hej
      · rw [thread_worker_exited_eq w.pool hs] at hf
        simp only [Option.some.injEq] at hf
        subst hf
        refine worldInv_of h _ _ h.1 rfl ?_ ?_
        · intro j hbj
          rcases update_apply_cases w.workers i j WorkerPc.exited with ⟨_, hv⟩ | ⟨_, hv⟩
          · rw [hv] at hbj
            cases hbj
          · exact Or.inl (hv ▸ hbj)
        · intro j hej
          rcases update_apply_cases w.workers i j WorkerPc.exited with ⟨_, hv⟩ | ⟨_, hv⟩
          · exact hv
          · rw [hv]
            exact hej
  | wake i =>
    simp only [fire] at hf
    cases hwi : w.workers i with
    | ready => simp [hwi] at hf
    | exited => simp [hwi] at hf
    | running task => simp [hwi] at hf
    | blocked =>
      simp only [hwi, Option.some.injEq] at hf
      subst hf
      refine worldInv_of h _ _ h.1 rfl ?_ ?_
      · intro j hbj
        rcases update_apply_cases w.workers i j WorkerPc.ready with ⟨_, hv⟩ | ⟨_, hv⟩
        · rw [hv] at hbj
          cases hbj
        · exact Or.inl (hv ▸ hbj)
      · intro j hej
        rcases update_apply_cases w.workers i j WorkerPc.ready with ⟨hji, _⟩ | ⟨_, hv⟩
        · subst hji
          rw [hwi] at hej
          cases hej
        · rw [hv]
          exact hej
  | destroy =>
    simp only [fire] at hf
    obtain ⟨hr, h1, h2, h3, h4⟩ := h
    cases hd : w.destroyer with
    | returned => simp [hd] at hf
    | idle =>
      simp only [hd, Option.some.injEq] at hf
      subst hf
      refine ⟨hr, ?_, ?_, ?_, ?_⟩
      · intro hc
        cases hc
      · intro _
        refine ⟨rfl, ?_⟩
        intro i hbi
        simp only [wakeAll] at hbi
        split at hbi
        · cases hbi
        · rename_i hnb
          exact hnb hbi
      · intro k hk
        cases hk
        exact ⟨Nat.zero_le _, fun i hi => absurd hi (Nat.not_lt_zero _)⟩
      · intro hc
        cases hc
    | joining k =>
      obtain ⟨hle, hex⟩ := h3 k hd
      obtain ⟨hs1, hnb⟩ := h2 (by rw [hd]; intro hc; cases hc)
      simp only [hd] at hf
      split at hf
      · rename_i hk
        split at hf
        · rename_i hek
          simp only [Option.some.injEq] at hf
          subst hf
          refine ⟨hr, ?_, ?_, ?_, ?_⟩
          · intro hc
            cases hc
          · intro _
            exact ⟨hs1, hnb⟩
          · intro k' hk'
            cases hk'
            refine ⟨hk, ?_⟩
            intro i hi
            by_cases hik : i.val < k
            · exact hex i hik
            · have : i = ⟨k, hk⟩ := Fin.ext (by simp only; omega)
              rw [this]
              exact hek
          · intro hc
            cases hc
        · simp at hf
      · rename_i hk
        simp only [Option.some.injEq] at hf
        subst hf
        refine ⟨hr, ?_, ?_, ?_, ?_⟩
        · intro hc
          cases hc
        · intro _
          exact ⟨hs1, hnb⟩
        · intro k' hk'
          cases hk'
        · intro _ i
          exact hex i (by have := i.isLt; omega)

theorem worldInv_init : WorldInv World.init := by
  refine ⟨by decide, fun _ => rfl, fun h => absurd rfl h, ?_, ?_⟩
  · intro k hk
    cases hk
  · intro hk
    cases hk

theorem play_inv {w w' : World} (h : WorldInv w) (evs : List Event)
    (hp : play w evs = some w') : WorldInv w' := by
  induction evs generalizing w with
  | nil =>
    simp only [play, Option.some.injEq] at hp
    subst hp
    exact h
  | cons e es ih =>
    simp only [play] at hp
    cases hf : fire w e with
    | none => simp [hf] at hp
    | some w1 =>
      simp only [hf] at hp
      exact ih (fire_inv h e hf) hp

/-- C11: `destroy_thread_pool` returns only after every worker thread has ended.
In every state reached by an interleaving of producers, workers and the destroying
thread: (1) once the destroying thread is past lines 77-79 (lock and condition
destroyed, pool freed) all `THREAD_POOL_SIZE` workers have ended; (2) while the join
loop is at index `k`, workers `0 .. k-1` have ended, and the join of worker `k`
completes exactly when worker `k` has ended; (3) from the moment the flag was set
under the lock and the broadcast issued, `shutdown = 1` and no worker is suspended in
`pthread_cond_wait`; (4) a worker that then reaches the critical section observes the
flag and ends, and one that runs a task comes back to the critical section when the
task returns; (5) the first step of `destroy_thread_pool` is always possible and
leaves the flag set with every suspended worker woken. -/
theorem destroy_returns_after_workers_exit (evs : List Event) (w : World)
    (h : play World.init evs = some w) :
    (w.destroyer = DestroyPc.returned → ∀ i, w.workers i = WorkerPc.exited) ∧
    (∀ k, w.destroyer = DestroyPc.joining k →
      k ≤ THREAD_POOL_SIZE ∧
      (∀ i : Fin THREAD_POOL_SIZE, i.val < k → w.workers i = WorkerPc.exited) ∧
      ∀ hk : k < THREAD_POOL_SIZE,
        (w.workers ⟨k, hk⟩ = WorkerPc.exited ↔ ∃ w', fire w Event.destroy = some w')) ∧
    (w.destroyer ≠ DestroyPc.idle →
      w.pool.shutdown = 1 ∧ (∀ i, w.workers i ≠ WorkerPc.blocked) ∧
      ∀ i,
        (w.workers i = WorkerPc.ready →
          ∃ w', fire w (Event.worker i) = some w' ∧ w'.workers i = WorkerPc.exited) ∧
        (∀ task, w.workers i = WorkerPc.running task →
          ∃ w', fire w (Event.worker i) = some w' ∧ w'.workers i = WorkerPc.ready)) ∧
    (w.destroyer = DestroyPc.idle →
      ∃ w', fire w Event.destroy = some w' ∧ w'.destroyer = DestroyPc.joining 0 ∧
        w'.pool.shutdown = 1 ∧ ∀ i, w'.workers i ≠ WorkerPc.blocked) := by
  have hinv := play_inv worldInv_init evs h
  obtain ⟨hr, h1, h2, h3, h4⟩ := hinv
  refine ⟨h4, ?_, ?_, ?_⟩
  · intro k hk
    obtain ⟨hle, hex⟩ := h3 k hk
    refine ⟨hle, hex, ?_⟩
    intro hlt
    constructor
    · intro he
      refine ⟨{ pool := w.pool, workers := w.workers, destroyer := DestroyPc.joining (k + 1) },
        ?_⟩
      simp only [fire, hk, dif_pos hlt, if_pos he]
    · rintro ⟨w', hf⟩
      simp only [fire, hk, dif_pos hlt] at hf
      by_contra hne
      rw [if_neg hne] at hf
      cases hf
  · intro hd
    obtain ⟨hs1, hnb⟩ := h2 hd
    have hs : w.pool.shutdown ≠ 0 := by
      rw [hs1]
      decide
    refine ⟨hs1, hnb, ?_⟩
    intro i
    constructor
    · intro hi
      refine ⟨{ pool := w.pool, workers := Function.update w.workers i WorkerPc.exited,
                destroyer := w.destroyer }, ?_, ?_⟩
      · simp only [fire, hi, thread_worker_exited_eq w.pool hs]
      · exact Function.update_same _ _ _
    · intro task hi
      refine ⟨{ pool := w.pool, workers := Function.update w.workers i WorkerPc.ready,
                destroyer := w.destroyer }, ?_, ?_⟩
      · simp only [fire, hi]
      · exact Function.update_same _ _ _
  · intro hd
    refine ⟨{ pool := destroy_thread_pool w.pool, workers := wakeAll w.workers,
              destroyer := DestroyPc.joining 0 }, ?_, rfl, rfl, ?_⟩
    · simp only [fire, hd]
    · intro i hbi
      simp only [wakeAll] at hbi
      split at hbi
      · cases hbi
      · rename_i hnb
        exact hnb hbi

/-- Witness of C11: `exampleEvents` is an interleaving that ends with
`destroy_thread_pool` returned. -/
theorem destroy_returns_after_workers_exit_witness :
    ∃ w, play World.init exampleEvents = some w ∧ w.destroyer = DestroyPc.returned ∧
      (∀ i, w.workers i = WorkerPc.exited) ∧ w.pool.shutdown = 1 := by
  have hd : (play World.init exampleEvents).map (fun w => w.destroyer)
      = some DestroyPc.returned := by decide
  cases h : play World.init exampleEvents with
  | none =>
    rw [h] at hd
    cases hd
  | some w =>
    rw [h] at hd
    have hret : w.destroyer = DestroyPc.returned := by simpa using hd
    have hthm := destroy_returns_after_workers_exit exampleEvents w h
    exact ⟨w, rfl, hret, hthm.1 hret,
      (hthm.2.2.1 (by rw [hret]; intro hc; cases hc)).1⟩

end thread_pool

namespace object_pool

theorem release_keep_eq (pool : IntPool) (obj : Nat) (h1 : pool.index < (POOL_SIZE : Int) - 1)
    (h : 0 ≤ pool.index + 1) :
    release_object pool obj = some
      { pool :=
          { objects := Function.update pool.objects ⟨(pool.index + 1).toNat, by omega⟩ obj
            index := pool.index + 1 }
        freed := none } := by
  unfold release_object
  rw [dif_pos h1, dif_pos h]

theorem release_full_eq (pool : IntPool) (obj : Nat)
    (h1 : ¬ pool.index < (POOL_SIZE : Int) - 1) :
    release_object pool obj = some { pool := pool, freed := some obj } := by
  unfold release_object
  rw [dif_neg h1]

theorem acquire_reuse_eq (pool : IntPool) (fresh : Nat) (h0 : 0 ≤ pool.index)
    (h : pool.index < POOL_SIZE) :
    acquire_object pool fresh = some
      { obj := pool.objects ⟨pool.index.toNat, by omega⟩
        pool := { pool with index := pool.index - 1 }
        malloced := false } := by
  unfold acquire_object
  rw [dif_pos h0, dif_pos h]

theorem acquire_malloc_eq (pool : IntPool) (fresh : Nat) (h0 : ¬ 0 ≤ pool.index) :
    acquire_object pool fresh = some { obj := fresh, pool := pool, malloced := true } := by
  unfold acquire_object
  rw [dif_neg h0]

theorem stored_length (pool : IntPool) : (stored pool).length = (pool.index + 1).toNat := by
  simp only [stored, List.length_map, List.length_range]

theorem stored_release (pool : IntPool) (obj : Nat) (k : Fin POOL_SIZE)
    (h : 0 ≤ pool.index + 1) (hk : (k.val : Int) = pool.index + 1) :
    stored { objects := Function.update pool.objects k obj, index := pool.index + 1 }
      = stored pool ++ [obj] := by
  have hn : (pool.index + 1 + 1).toNat = (pool.index + 1).toNat + 1 := by omega
  simp only [stored, hn, List.range_succ, List.map_append, List.map_cons, List.map_nil]
  congr 1
  · apply List.map_congr_left
    intro i hi
    have hi' : i < (pool.index + 1).toNat := List.mem_range.mp hi
    have hlt : i < POOL_SIZE := by have := k.isLt; omega
    simp only [slot, dif_pos hlt]
    apply Function.update_noteq
    intro he
    have hv := congrArg Fin.val he
    simp only at hv
    omega
  · have hlt : (pool.index + 1).toNat < POOL_SIZE := by have := k.isLt; omega
    simp only [slot, dif_pos hlt]
    have : (⟨(pool.index + 1).toNat, hlt⟩ : Fin POOL_SIZE) = k := by
      apply Fin.ext
      simp only
      omega
    rw [this, Function.update_same]

theorem stored_acquire (pool : IntPool) (k : Fin POOL_SIZE) (h0 : 0 ≤ pool.index)
    (hk : (k.val : Int) = pool.index) :
    stored pool = stored { pool with index := pool.index - 1 } ++ [pool.objects k] := by
  have hn : (pool.index + 1).toNat = (pool.index - 1 + 1).toNat + 1 := by omega
  simp only [stored]
  rw [hn, List.range_succ, List.map_append, List.map_cons, List.map_nil]
  congr 1
  congr 1
  have hlt : (pool.index - 1 + 1).toNat < POOL_SIZE := by have := k.isLt; omega
  simp only [slot, dif_pos hlt]
  congr 1
  apply Fin.ext
  simp only
  omega

theorem step_inv {s : Sys} (h : Inv s) (op : Op) : ∃ s', step s op = some s' ∧ Inv s' := by
  obtain ⟨⟨hlo, hhi⟩, hperm⟩ := h
  have hP : ((POOL_SIZE : Nat) : Int) = 5 := rfl
  have hPn : POOL_SIZE = 5 := rfl
  have hlen : s.kept.length = (s.pool.index + 1).toNat := by
    rw [← hperm.length_eq, stored_length]
  cases op with
  | acquire fresh =>
    by_cases h0 : 0 ≤ s.pool.index
    · have hlt : s.pool.index < POOL_SIZE := by omega
      have hst := stored_acquire s.pool ⟨s.pool.index.toNat, by omega⟩ h0
        (Int.toNat_of_nonneg h0)
      refine ⟨{ pool := { s.pool with index := s.pool.index - 1 }
                kept := s.kept.erase (s.pool.objects ⟨s.pool.index.toNat, by omega⟩) },
        ?_, ⟨?_, ?_⟩, ?_⟩
      · simp [step, acquire_reuse_eq s.pool fresh h0 hlt]
      · show -1 ≤ s.pool.index - 1
        omega
      · show s.pool.index - 1 ≤ (POOL_SIZE : Int) - 1
        omega
      · show (stored { s.pool with index := s.pool.index - 1 }).Perm _
        rw [hst] at hperm
        have h1 := hperm.erase (s.pool.objects ⟨s.pool.index.toNat, by omega⟩)
        have h2 : ((stored { s.pool with index := s.pool.index - 1 }
            ++ [s.pool.objects ⟨s.pool.index.toNat, by omega⟩]).erase
              (s.pool.objects ⟨s.pool.index.toNat, by omega⟩)).Perm
            (stored { s.pool with index := s.pool.index - 1 }) := by
          have h3 : (stored { s.pool with index := s.pool.index - 1 }
              ++ [s.pool.objects ⟨s.pool.index.toNat, by omega⟩]).Perm
              (s.pool.objects ⟨s.pool.index.toNat, by omega⟩ ::
                stored { s.pool with index := s.pool.index - 1 }) :=
            List.perm_append_singleton _ _
          have h4 := h3.erase (s.pool.objects ⟨s.pool.index.toNat, by omega⟩)
          rwa [List.erase_cons_head] at h4
        exact h2.symm.trans h1
    · have hnil : s.kept = [] := by
        apply List.eq_nil_of_length_eq_zero
        rw [hlen]
        omega
      refine ⟨{ pool := s.pool, kept := s.kept.erase fresh }, ?_, ⟨hlo, hhi⟩, ?_⟩
      · simp [step, acquire_malloc_eq s.pool fresh h0]
      · show (stored s.pool).Perm (s.kept.erase fresh)
        rw [hnil, List.erase_nil, ← hnil]
        exact hperm
  | release obj =>
    by_cases h1 : s.pool.index < (POOL_SIZE : Int) - 1
    · have h0 : 0 ≤ s.pool.index + 1 := by omega
      have hroom : s.kept.length < POOL_SIZE := by
        rw [hlen, hPn]
        omega
      have hst := stored_release s.pool obj ⟨(s.pool.index + 1).toNat, by omega⟩ h0
        (Int.toNat_of_nonneg h0)
      refine ⟨{ pool :=
                  { objects :=
                      Function.update s.pool.objects ⟨(s.pool.index + 1).toNat, by omega⟩ obj
                    index := s.pool.index + 1 }
                kept := s.kept ++ [obj] }, ?_, ⟨?_, ?_⟩, ?_⟩
      · simp only [step, release_keep_eq s.pool obj h1 h0, if_pos hroom]
      · show -1 ≤ s.pool.index + 1
        omega
      · show s.pool.index + 1 ≤ (POOL_SIZE : Int) - 1
        omega
      · show (stored _).Perm (s.kept ++ [obj])
        rw [hst]
        exact hperm.append_right _
    · have hfull : ¬ s.kept.length < POOL_SIZE := by
        rw [hlen, hPn]
        omega
      refine ⟨s, ?_, ⟨hlo, hhi⟩, hperm⟩
      simp only [step, release_full_eq s.pool obj h1, if_neg hfull]

theorem run_inv {s : Sys} (h : Inv s) (ops : List Op) : ∃ s', run s ops = some s' ∧ Inv s' := by
  induction ops generalizing s with
  | nil => exact ⟨s, rfl, h⟩
  | cons op ops ih =>
    obtain ⟨s1, h1, hi1⟩ := step_inv h op
    obtain ⟨s2, h2, hi2⟩ := ih hi1
    exact ⟨s2, by simp only [run, h1, h2], hi2⟩

theorem inv_init : Inv Sys.init :=
  ⟨by decide, List.Perm.refl _⟩

theorem releaseAll_spec (pool : IntPool) (objs : List Nat) (hlo : -1 ≤ pool.index)
    (hroom : pool.index + 1 + objs.length ≤ POOL_SIZE) :
    ∃ p, releaseAll pool objs = some p ∧ stored p = stored pool ++ objs ∧
      p.index = pool.index + objs.length := by
  induction objs generalizing pool with
  | nil => exact ⟨pool, rfl, by simp, by simp⟩
  | cons obj objs ih =>
    simp only [List.length_cons, Nat.cast_add, Nat.cast_one] at hroom
    have h1 : pool.index < (POOL_SIZE : Int) - 1 := by omega
    have h0 : 0 ≤ pool.index + 1 := by omega
    have hst := stored_release pool obj ⟨(pool.index + 1).toNat, by omega⟩ h0
      (Int.toNat_of_nonneg h0)
    obtain ⟨p, hp, hs, hi⟩ := ih
      { objects := Function.update pool.objects ⟨(pool.index + 1).toNat, by omega⟩ obj
        index := pool.index + 1 }
      (by show -1 ≤ pool.index + 1; omega)
      (by show pool.index + 1 + 1 + (objs.length : Int) ≤ POOL_SIZE; omega)
    refine ⟨p, ?_, ?_, ?_⟩
    · simp only [releaseAll, release_keep_eq pool obj h1 h0]
      exact hp
    · rw [hs, hst]
      simp
    · rw [hi]
      simp only [List.length_cons, Nat.cast_add, Nat.cast_one]
      omega

theorem acquireN_spec (pool : IntPool) (fresh k : Nat) (hhi : pool.index < POOL_SIZE)
    (hk : (k : Int) ≤ pool.index + 1) :
    ∃ p, acquireN pool fresh k = some ((stored pool).reverse.take k, p) ∧
      p.index = pool.index - k ∧ p.objects = pool.objects := by
  induction k generalizing pool with
  | zero => exact ⟨pool, rfl, by simp, rfl⟩
  | succ k ih =>
    simp only [Nat.cast_add, Nat.cast_one] at hk
    have h0 : 0 ≤ pool.index := by omega
    have hst := stored_acquire pool ⟨pool.index.toNat, by omega⟩ h0 (Int.toNat_of_nonneg h0)
    obtain ⟨p, hp, hi, ho⟩ := ih { pool with index := pool.index - 1 }
      (by show pool.index - 1 < POOL_SIZE; omega)
      (by show (k : Int) ≤ pool.index - 1 + 1; omega)
    refine ⟨p, ?_, ?_, ho⟩
    · simp only [acquireN, acquire_reuse_eq pool fresh h0 hhi, hp]
      rw [hst]
      simp
    · rw [hi]
      simp only [Nat.cast_add, Nat.cast_one]
      omega

/-- LIFO reuse for this pool. -/
theorem lifo_core (pool : IntPool) (h : Bounds pool) (fresh : Nat) :
    (∀ obj, pool.index < (POOL_SIZE : Int) - 1 →
      ∃ r, release_object pool obj = some r ∧ r.freed = none ∧
        r.pool.index = pool.index + 1 ∧
        ∃ r', acquire_object r.pool fresh = some r' ∧ r'.obj = obj ∧
          r'.malloced = false ∧ r'.pool.index = pool.index ∧
          stored r'.pool = stored pool) ∧
    (∀ objs : List Nat, pool.index + 1 + objs.length ≤ POOL_SIZE →
      ∃ p, releaseAll pool objs = some p ∧ p.index = pool.index + objs.length ∧
        ∃ p', acquireN p fresh objs.length = some (objs.reverse, p') ∧
          p'.index = pool.index ∧ stored p' = stored pool) := by
  obtain ⟨hlo, hhi⟩ := h
  have hP : ((POOL_SIZE : Nat) : Int) = 5 := rfl
  constructor
  · intro obj h1
    have h0 : 0 ≤ pool.index + 1 := by omega
    have hst := stored_release pool obj ⟨(pool.index + 1).toNat, by omega⟩ h0
      (Int.toNat_of_nonneg h0)
    refine ⟨_, release_keep_eq pool obj h1 h0, rfl, rfl, ?_⟩
    refine ⟨_, acquire_reuse_eq _ fresh h0 (by show pool.index + 1 < POOL_SIZE; omega),
      ?_, rfl, ?_, ?_⟩
    · exact Function.update_same _ _ _
    · show pool.index + 1 - 1 = pool.index
      omega
    · have hacq := stored_acquire
        { objects := Function.update pool.objects ⟨(pool.index + 1).toNat, by omega⟩ obj
          index := pool.index + 1 } ⟨(pool.index + 1).toNat, by omega⟩ h0
        (Int.toNat_of_nonneg h0)
      rw [hst] at hacq
      exact (List.append_inj_left' hacq rfl).symm
  · intro objs hroom
    obtain ⟨p, hp, hs, hi⟩ := releaseAll_spec pool objs hlo hroom
    obtain ⟨p', hp', hi', ho'⟩ := acquireN_spec p fresh objs.length (by omega) (by omega)
    refine ⟨p, hp, hi, p', ?_, by omega, ?_⟩
    · rw [hp', hs]
      simp
    · have hl : (stored p').length = (stored pool).length := by
        rw [stored_length, stored_length, hi']
        omega
      have hpre : stored p' = (stored p).take (stored p').length := by
        simp only [stored, ho', List.length_map, List.length_range]
        rw [← List.map_take, List.take_range]
        have hslot : slot p' = slot p := by
          funext i
          simp only [slot, ho']
        have hmin : min (p'.index + 1).toNat (p.index + 1).toNat = (p'.index + 1).toNat := by
          omega
        rw [hslot, hmin]
      rw [hpre, hl, hs, List.take_left]

/-- The bounds invariant and what it gives, for this pool. -/
theorem bounds_core (ops : List Op) :
    ∃ s, run Sys.init ops = some s ∧
      -1 ≤ s.pool.index ∧ s.pool.index ≤ (POOL_SIZE : Int) - 1 ∧ POOL_SIZE = 5 ∧
      (stored s.pool).length = (s.pool.index + 1).toNat ∧
      (stored s.pool).length ≤ POOL_SIZE ∧
      (stored s.pool).Perm s.kept ∧
      (∀ fresh, ∃ r, acquire_object s.pool fresh = some r) ∧
      (∀ obj, ∃ r, release_object s.pool obj = some r) ∧
      (s.pool.index = (POOL_SIZE : Int) - 1 →
        ∀ obj, release_object s.pool obj = some { pool := s.pool, freed := some obj }) ∧
      (s.pool.index < (POOL_SIZE : Int) - 1 →
        ∀ obj, ∃ r, release_object s.pool obj = some r ∧ r.freed = none ∧
          r.pool.index = s.pool.index + 1 ∧
          (∀ k : Fin POOL_SIZE, (k.val : Int) = s.pool.index + 1 → r.pool.objects k = obj) ∧
          (∀ k : Fin POOL_SIZE, (k.val : Int) ≠ s.pool.index + 1 →
            r.pool.objects k = s.pool.objects k) ∧
          stored r.pool = stored s.pool ++ [obj]) ∧
      (0 ≤ s.pool.index →
        ∀ fresh, ∃ r, acquire_object s.pool fresh = some r ∧ r.malloced = false ∧
          r.pool.index = s.pool.index - 1 ∧ r.pool.objects = s.pool.objects ∧
          (∀ k : Fin POOL_SIZE, (k.val : Int) = s.pool.index → r.obj = s.pool.objects k) ∧
          stored s.pool = stored r.pool ++ [r.obj]) ∧
      (s.pool.index = -1 →
        ∀ fresh, acquire_object s.pool fresh
          = some { obj := fresh, pool := s.pool, malloced := true }) := by
  obtain ⟨s, hrun, ⟨hlo, hhi⟩, hperm⟩ := run_inv inv_init ops
  have hP : ((POOL_SIZE : Nat) : Int) = 5 := rfl
  refine ⟨s, hrun, hlo, hhi, rfl, stored_length _, ?_, hperm, ?_, ?_, ?_, ?_, ?_, ?_⟩
  · rw [stored_length]
    omega
  · intro fresh
    by_cases h0 : 0 ≤ s.pool.index
    · exact ⟨_, acquire_reuse_eq s.pool fresh h0 (by omega)⟩
    · exact ⟨_, acquire_malloc_eq s.pool fresh h0⟩
  · intro obj
    by_cases h1 : s.pool.index < (POOL_SIZE : Int) - 1
    · exact ⟨_, release_keep_eq s.pool obj h1 (by omega)⟩
    · exact ⟨_, release_full_eq s.pool obj h1⟩
  · intro hfull obj
    exact release_full_eq s.pool obj (by omega)
  · intro h1 obj
    have h0 : 0 ≤ s.pool.index + 1 := by omega
    refine ⟨_, release_keep_eq s.pool obj h1 h0, rfl, rfl, ?_, ?_, ?_⟩
    · intro k hk
      have : k = ⟨(s.pool.index + 1).toNat, by omega⟩ := by
        apply Fin.ext
        simp only
        omega
      rw [this]
      exact Function.update_same _ _ _
    · intro k hk
      apply Function.update_noteq
      intro he
      apply hk
      rw [he]
      exact Int.toNat_of_nonneg h0
    · exact stored_release s.pool obj ⟨(s.pool.index + 1).toNat, by omega⟩ h0
        (Int.toNat_of_nonneg h0)
  · intro h0 fresh
    refine ⟨_, acquire_reuse_eq s.pool fresh h0 (by omega), rfl, rfl, rfl, ?_, ?_⟩
    · intro k hk
      show s.pool.objects _ = s.pool.objects k
      congr 1
      apply Fin.ext
      simp only
      omega
    · exact stored_acquire s.pool ⟨s.pool.index.toNat, by omega⟩ h0 (Int.toNat_of_nonneg h0)
  · intro hempty fresh
    exact acquire_malloc_eq s.pool fresh (by omega)

end object_pool

namespace object_pool2

theorem release_keep_eq2 (pool : ObjectPool) (obj : Nat) (h1 : pool.index < (POOL_SIZE : Int) - 1)
    (h : 0 ≤ pool.index + 1) :
    release_object pool obj = some
      { pool :=
          { objects := Function.update pool.objects ⟨(pool.index + 1).toNat, by omega⟩ obj
            index := pool.index + 1 }
        freed := none } := by
  unfold release_object
  rw [dif_pos h1, dif_pos h]

theorem release_full_eq2 (pool : ObjectPool) (obj : Nat)
    (h1 : ¬ pool.index < (POOL_SIZE : Int) - 1) :
    release_object pool obj = some { pool := pool, freed := some obj } := by
  unfold release_object
  rw [dif_neg h1]

theorem acquire_reuse_eq2 (pool : ObjectPool) (fresh : Nat) (h0 : 0 ≤ pool.index)
    (h : pool.index < POOL_SIZE) :
    acquire_object pool fresh = some
      { obj := pool.objects ⟨pool.index.toNat, by omega⟩
        pool := { pool with index := pool.index - 1 }
        malloced := false } := by
  unfold acquire_object
  rw [dif_pos h0, dif_pos h]

theorem acquire_malloc_eq2 (pool : ObjectPool) (fresh : Nat) (h0 : ¬ 0 ≤ pool.index) :
    acquire_object pool fresh = some { obj := fresh, pool := pool, malloced := true } := by
  unfold acquire_object
  rw [dif_neg h0]

theorem stored_length2 (pool : ObjectPool) : (stored pool).length = (pool.index + 1).toNat := by
  simp only [stored, List.length_map, List.length_range]

theorem stored_release2 (pool : ObjectPool) (obj : Nat) (k : Fin POOL_SIZE)
    (h : 0 ≤ pool.index + 1) (hk : (k.val : Int) = pool.index + 1) :
    stored { objects := Function.update pool.objects k obj, index := pool.index + 1 }
      = stored pool ++ [obj] := by
  have hn : (pool.index + 1 + 1).toNat = (pool.index + 1).toNat + 1 := by omega
  simp only [stored, hn, List.range_succ, List.map_append, List.map_cons, List.map_nil]
  congr 1
  · apply List.map_congr_left
    intro i hi
    have hi' : i < (pool.index + 1).toNat := List.mem_range.mp hi
    have hlt : i < POOL_SIZE := by have := k.isLt; omega
    simp only [slot, dif_pos hlt]
    apply Function.update_noteq
    intro he
    have hv := congrArg Fin.val he
    simp only at hv
    omega
  · have hlt : (pool.index + 1).toNat < POOL_SIZE := by have := k.isLt; omega
    simp only [slot, dif_pos hlt]
    have : (⟨(pool.index + 1).toNat, hlt⟩ : Fin POOL_SIZE) = k := by
      apply Fin.ext
      simp only
      omega
    rw [this, Function.update_same]

theorem stored_acquire2 (pool : ObjectPool) (k : Fin POOL_SIZE) (h0 : 0 ≤ pool.index)
    (hk : (k.val : Int) = pool.index) :
    stored pool = stored { pool with index := pool.index - 1 } ++ [pool.objects k] := by
  have hn : (pool.index + 1).toNat = (pool.index - 1 + 1).toNat + 1 := by omega
  simp only [stored]
  rw [hn, List.range_succ, List.map_append, List.map_cons, List.map_nil]
  congr 1
  congr 1
  have hlt : (pool.index - 1 + 1).toNat < POOL_SIZE := by have := k.isLt; omega
  simp only [slot, dif_pos hlt]
  congr 1
  apply Fin.ext
  simp only
  omega

theorem step_inv2 {s : Sys} (h : Inv s) (op : Op) : ∃ s', step s op = some s' ∧ Inv s' := by
  obtain ⟨⟨hlo, hhi⟩, hperm⟩ := h
  have hP : ((POOL_SIZE : Nat) : Int) = 5 := rfl
  have hPn : POOL_SIZE = 5 := rfl
  have hlen : s.kept.length = (s.pool.index + 1).toNat := by
    rw [← hperm.length_eq, stored_length2]
  cases op with
  | acquire fresh =>
    by_cases h0 : 0 ≤ s.pool.index
    · have hlt : s.pool.index < POOL_SIZE := by omega
      have hst := stored_acquire2 s.pool ⟨s.pool.index.toNat, by omega⟩ h0
        (Int.toNat_of_nonneg h0)
      refine ⟨{ pool := { s.pool with index := s.pool.index - 1 }
                kept := s.kept.erase (s.pool.objects ⟨s.pool.index.toNat, by omega⟩) },
        ?_, ⟨?_, ?_⟩, ?_⟩
      · simp [step, acquire_reuse_eq2 s.pool fresh h0 hlt]
      · show -1 ≤ s.pool.index - 1
        omega
      · show s.pool.index - 1 ≤ (POOL_SIZE : Int) - 1
        omega
      · show (stored { s.pool with index := s.pool.index - 1 }).Perm _
        rw [hst] at hperm
        have h1 := hperm.erase (s.pool.objects ⟨s.pool.index.toNat, by omega⟩)
        have h2 : ((stored { s.pool with index := s.pool.index - 1 }
            ++ [s.pool.objects ⟨s.pool.index.toNat, by omega⟩]).erase
              (s.pool.objects ⟨s.pool.index.toNat, by omega⟩)).Perm
            (stored { s.pool with index := s.pool.index - 1 }) := by
          have h3 : (stored { s.pool with index := s.pool.index - 1 }
              ++ [s.pool.objects ⟨s.pool.index.toNat, by omega⟩]).Perm
              (s.pool.objects ⟨s.pool.index.toNat, by omega⟩ ::
                stored { s.pool with index := s.pool.index - 1 }) :=
            List.perm_append_singleton _ _
          have h4 := h3.erase (s.pool.objects ⟨s.pool.index.toNat, by omega⟩)
          rwa [List.erase_cons_head] at h4
        exact h2.symm.trans h1
    · have hnil : s.kept = [] := by
        apply List.eq_nil_of_length_eq_zero
        rw [hlen]
        omega
      refine ⟨{ pool := s.pool, kept := s.kept.erase fresh }, ?_, ⟨hlo, hhi⟩, ?_⟩
      · simp [step, acquire_malloc_eq2 s.pool fresh h0]
      · show (stored s.pool).Perm (s.kept.erase fresh)
        rw [hnil, List.erase_nil, ← hnil]
        exact hperm
  | release obj =>
    by_cases h1 : s.pool.index < (POOL_SIZE : Int) - 1
    · have h0 : 0 ≤ s.pool.index + 1 := by omega
      have hroom : s.kept.length < POOL_SIZE := by
        rw [hlen, hPn]
        omega
      have hst := stored_release2 s.pool obj ⟨(s.pool.index + 1).toNat, by omega⟩ h0
        (Int.toNat_of_nonneg h0)
      refine ⟨{ pool :=
                  { objects :=
                      Function.update s.pool.objects ⟨(s.pool.index + 1).toNat, by omega⟩ obj
                    index := s.pool.index + 1 }
                kept := s.kept ++ [obj] }, ?_, ⟨?_, ?_⟩, ?_⟩
      · simp only [step, release_keep_eq2 s.pool obj h1 h0, if_pos hroom]
      · show -1 ≤ s.pool.index + 1
        omega
      · show s.pool.index + 1 ≤ (POOL_SIZE : Int) - 1
        omega
      · show (stored _).Perm (s.kept ++ [obj])
        rw [hst]
        exact hperm.append_right _
    · have hfull : ¬ s.kept.length < POOL_SIZE := by
        rw [hlen, hPn]
        omega
      refine ⟨s, ?_, ⟨hlo, hhi⟩, hperm⟩
      simp only [step, release_full_eq2 s.pool obj h1, if_neg hfull]

theorem run_inv2 {s : Sys} (h : Inv s) (ops : List Op) : ∃ s', run s ops = some s' ∧ Inv s' := by
  induction ops generalizing s with
  | nil => exact ⟨s, rfl, h⟩
  | cons op ops ih =>
    obtain ⟨s1, h1, hi1⟩ := step_inv2 h op
    obtain ⟨s2, h2, hi2⟩ := ih hi1
    exact ⟨s2, by simp only [run, h1, h2], hi2⟩

theorem inv_init2 : Inv Sys.init :=
  ⟨by decide, List.Perm.refl _⟩

theorem releaseAll_spec2 (pool : ObjectPool) (objs : List Nat) (hlo : -1 ≤ pool.index)
    (hroom : pool.index + 1 + objs.length ≤ POOL_SIZE) :
    ∃ p, releaseAll pool objs = some p ∧ stored p = stored pool ++ objs ∧
      p.index = pool.index + objs.length := by
  induction objs generalizing pool with
  | nil => exact ⟨pool, rfl, by simp, by simp⟩
  | cons obj objs ih =>
    simp only [List.length_cons, Nat.cast_add, Nat.cast_one] at hroom
    have h1 : pool.index < (POOL_SIZE : Int) - 1 := by omega
    have h0 : 0 ≤ pool.index + 1 := by omega
    have hst := stored_release2 pool obj ⟨(pool.index + 1).toNat, by omega⟩ h0
      (Int.toNat_of_nonneg h0)
    obtain ⟨p, hp, hs, hi⟩ := ih
      { objects := Function.update pool.objects ⟨(pool.index + 1).toNat, by omega⟩ obj
        index := pool.index + 1 }
      (by show -1 ≤ pool.index + 1; omega)
      (by show pool.index + 1 + 1 + (objs.length : Int) ≤ POOL_SIZE; omega)
    refine ⟨p, ?_, ?_, ?_⟩
    · simp only [releaseAll, release_keep_eq2 pool obj h1 h0]
      exact hp
    · rw [hs, hst]
      simp
    · rw [hi]
      simp only [List.length_cons, Nat.cast_add, Nat.cast_one]
      omega

theorem acquireN_spec2 (pool : ObjectPool) (fresh k : Nat) (hhi : pool.index < POOL_SIZE)
    (hk : (k : Int) ≤ pool.index + 1) :
    ∃ p, acquireN pool fresh k = some ((stored pool).reverse.take k, p) ∧
      p.index = pool.index - k ∧ p.objects = pool.objects := by
  induction k generalizing pool with
  | zero => exact ⟨pool, rfl, by simp, rfl⟩
  | succ k ih =>
    simp only [Nat.cast_add, Nat.cast_one] at hk
    have h0 : 0 ≤ pool.index := by omega
    have hst := stored_acquire2 pool ⟨pool.index.toNat, by omega⟩ h0 (Int.toNat_of_nonneg h0)
    obtain ⟨p, hp, hi, ho⟩ := ih { pool with index := pool.index - 1 }
      (by show pool.index - 1 < POOL_SIZE; omega)
      (by show (k : Int) ≤ pool.index - 1 + 1; omega)
    refine ⟨p, ?_, ?_, ho⟩
    · simp only [acquireN, acquire_reuse_eq2 pool fresh h0 hhi, hp]
      rw [hst]
      simp
    · rw [hi]
      simp only [Nat.cast_add, Nat.cast_one]
      omega

/-- LIFO reuse for this pool. -/
theorem lifo_core2 (pool : ObjectPool) (h : Bounds pool) (fresh : Nat) :
    (∀ obj, pool.index < (POOL_SIZE : Int) - 1 →
      ∃ r, release_object pool obj = some r ∧ r.freed = none ∧
        r.pool.index = pool.index + 1 ∧
        ∃ r', acquire_object r.pool fresh = some r' ∧ r'.obj = obj ∧
          r'.malloced = false ∧ r'.pool.index = pool.index ∧
          stored r'.pool = stored pool) ∧
    (∀ objs : List Nat, pool.index + 1 + objs.length ≤ POOL_SIZE →
      ∃ p, releaseAll pool objs = some p ∧ p.index = pool.index + objs.length ∧
        ∃ p', acquireN p fresh objs.length = some (objs.reverse, p') ∧
          p'.index = pool.index ∧ stored p' = stored pool) := by
  obtain ⟨hlo, hhi⟩ := h
  have hP : ((POOL_SIZE : Nat) : Int) = 5 := rfl
  constructor
  · intro obj h1
    have h0 : 0 ≤ pool.index + 1 := by omega
    have hst := stored_release2 pool obj ⟨(pool.index + 1).toNat, by omega⟩ h0
      (Int.toNat_of_nonneg h0)
    refine ⟨_, release_keep_eq2 pool obj h1 h0, rfl, rfl, ?_⟩
    refine ⟨_, acquire_reuse_eq2 _ fresh h0 (by show pool.index + 1 < POOL_SIZE; omega),
      ?_, rfl, ?_, ?_⟩
    · exact Function.update_same _ _ _
    · show pool.index + 1 - 1 = pool.index
      omega
    · have hacq := stored_acquire2
        { objects := Function.update pool.objects ⟨(pool.index + 1).toNat, by omega⟩ obj
          index := pool.index + 1 } ⟨(pool.index + 1).toNat, by omega⟩ h0
        (Int.toNat_of_nonneg h0)
      rw [hst] at hacq
      exact (List.append_inj_left' hacq rfl).symm
  · intro objs hroom
    obtain ⟨p, hp, hs, hi⟩ := releaseAll_spec2 pool objs hlo hroom
    obtain ⟨p', hp', hi', ho'⟩ := acquireN_spec2 p fresh objs.length (by omega) (by omega)
    refine ⟨p, hp, hi, p', ?_, by omega, ?_⟩
    · rw [hp', hs]
      simp
    · have hl : (stored p').length = (stored pool).length := by
        rw [stored_length2, stored_length2, hi']
        omega
      have hpre : stored p' = (stored p).take (stored p').length := by
        simp only [stored, ho', List.length_map, List.length_range]
        rw [← List.map_take, List.take_range]
        have hslot : slot p' = slot p := by
          funext i
          simp only [slot, ho']
        have hmin : min (p'.index + 1).toNat (p.index + 1).toNat = (p'.index + 1).toNat := by
          omega
        rw [hslot, hmin]
      rw [hpre, hl, hs, List.take_left]

/-- The bounds invariant and what it gives, for this pool. -/
theorem bounds_core2 (ops : List Op) :
    ∃ s, run Sys.init ops = some s ∧
      -1 ≤ s.pool.index ∧ s.pool.index ≤ (POOL_SIZE : Int) - 1 ∧ POOL_SIZE = 5 ∧
      (stored s.pool).length = (s.pool.index + 1).toNat ∧
      (stored s.pool).length ≤ POOL_SIZE ∧
      (stored s.pool).Perm s.kept ∧
      (∀ fresh, ∃ r, acquire_object s.pool fresh = some r) ∧
      (∀ obj, ∃ r, release_object s.pool obj = some r) ∧
      (s.pool.index = (POOL_SIZE : Int) - 1 →
        ∀ obj, release_object s.pool obj = some { pool := s.pool, freed := some obj }) ∧
      (s.pool.index < (POOL_SIZE : Int) - 1 →
        ∀ obj, ∃ r, release_object s.pool obj = some r ∧ r.freed = none ∧
          r.pool.index = s.pool.index + 1 ∧
          (∀ k : Fin POOL_SIZE, (k.val : Int) = s.pool.index + 1 → r.pool.objects k = obj) ∧
          (∀ k : Fin POOL_SIZE, (k.val : Int) ≠ s.pool.index + 1 →
            r.pool.objects k = s.pool.objects k) ∧
          stored r.pool = stored s.pool ++ [obj]) ∧
      (0 ≤ s.pool.index →
        ∀ fresh, ∃ r, acquire_object s.pool fresh = some r ∧ r.malloced = false ∧
          r.pool.index = s.pool.index - 1 ∧ r.pool.objects = s.pool.objects ∧
          (∀ k : Fin POOL_SIZE, (k.val : Int) = s.pool.index → r.obj = s.pool.objects k) ∧
          stored s.pool = stored r.pool ++ [r.obj]) ∧
      (s.pool.index = -1 →
        ∀ fresh, acquire_object s.pool fresh
          = some { obj := fresh, pool := s.pool, malloced := true }) := by
  obtain ⟨s, hrun, ⟨hlo, hhi⟩, hperm⟩ := run_inv2 inv_init2 ops
  have hP : ((POOL_SIZE : Nat) : Int) = 5 := rfl
  refine ⟨s, hrun, hlo, hhi, rfl, stored_length2 _, ?_, hperm, ?_, ?_, ?_, ?_, ?_, ?_⟩
  · rw [stored_length2]
    omega
  · intro fresh
    by_cases h0 : 0 ≤ s.pool.index
    · exact ⟨_, acquire_reuse_eq2 s.pool fresh h0 (by omega)⟩
    · exact ⟨_, acquire_malloc_eq2 s.pool fresh h0⟩
  · intro obj
    by_cases h1 : s.pool.index < (POOL_SIZE : Int) - 1
    · exact ⟨_, release_keep_eq2 s.pool obj h1 (by omega)⟩
    · exact ⟨_, release_full_eq2 s.pool obj h1⟩
  · intro hfull obj
    exact release_full_eq2 s.pool obj (by omega)
  · intro h1 obj
    have h0 : 0 ≤ s.pool.index + 1 := by omega
    refine ⟨_, release_keep_eq2 s.pool obj h1 h0, rfl, rfl, ?_, ?_, ?_⟩
    · intro k hk
      have : k = ⟨(s.pool.index + 1).toNat, by omega⟩ := by
        apply Fin.ext
        simp only
        omega
      rw [this]
      exact Function.update_same _ _ _
    · intro k hk
      apply Function.update_noteq
      intro he
      apply hk
      rw [he]
      exact Int.toNat_of_nonneg h0
    · exact stored_release2 s.pool obj ⟨(s.pool.index + 1).toNat, by omega⟩ h0
        (Int.toNat_of_nonneg h0)
  · intro h0 fresh
    refine ⟨_, acquire_reuse_eq2 s.pool fresh h0 (by omega), rfl, rfl, rfl, ?_, ?_⟩
    · intro k hk
      show s.pool.objects _ = s.pool.objects k
      congr 1
      apply Fin.ext
      simp only
      omega
    · exact stored_acquire2 s.pool ⟨s.pool.index.toNat, by omega⟩ h0 (Int.toNat_of_nonneg h0)
  · intro hempty fresh
    exact acquire_malloc_eq2 s.pool fresh (by omega)

end object_pool2

/-- C12: both object pools reuse in last-in-first-out order.  For an `IntPool` and an
`ObjectPool` within their bounds: when `index < POOL_SIZE - 1`, `release_object`
keeps the object and a following `acquire_object` returns that very object without
calling `malloc` and restores `index` (and the stored objects); and after releasing
`o1, ..., ok` with `k` at most the number of free slots, the next `k` calls of
`acquire_object` return `ok, ..., o1` in that order and restore `index`. -/
theorem object_pools_lifo_reuse (pool : object_pool.IntPool) (pool2 : object_pool2.ObjectPool)
    (h : object_pool.Bounds pool) (h2 : object_pool2.Bounds pool2) (fresh : Nat) :
    ((∀ obj, pool.index < (object_pool.POOL_SIZE : Int) - 1 →
        ∃ r, object_pool.release_object pool obj = some r ∧ r.freed = none ∧
          r.pool.index = pool.index + 1 ∧
          ∃ r', object_pool.acquire_object r.pool fresh = some r' ∧ r'.obj = obj ∧
            r'.malloced = false ∧ r'.pool.index = pool.index ∧
            object_pool.stored r'.pool = object_pool.stored pool) ∧
      (∀ objs : List Nat, pool.index + 1 + objs.length ≤ object_pool.POOL_SIZE →
        ∃ p, object_pool.releaseAll pool objs = some p ∧
          p.index = pool.index + objs.length ∧
          ∃ p', object_pool.acquireN p fresh objs.length = some (objs.reverse, p') ∧
            p'.index = pool.index ∧ object_pool.stored p' = object_pool.stored pool)) ∧
    ((∀ obj, pool2.index < (object_pool2.POOL_SIZE : Int) - 1 →
        ∃ r, object_pool2.release_object pool2 obj = some r ∧ r.freed = none ∧
          r.pool.index = pool2.index + 1 ∧
          ∃ r', object_pool2.acquire_object r.pool fresh = some r' ∧ r'.obj = obj ∧
            r'.malloced = false ∧ r'.pool.index = pool2.index ∧
            object_pool2.stored r'.pool = object_pool2.stored pool2) ∧
      (∀ objs : List Nat, pool2.index + 1 + objs.length ≤ object_pool2.POOL_SIZE →
        ∃ p, object_pool2.releaseAll pool2 objs = some p ∧
          p.index = pool2.index + objs.length ∧
          ∃ p', object_pool2.acquireN p fresh objs.length = some (objs.reverse, p') ∧
            p'.index = pool2.index ∧ object_pool2.stored p' = object_pool2.stored pool2)) :=
  ⟨object_pool.lifo_core pool h fresh, object_pool2.lifo_core2 pool2 h2 fresh⟩

/-- Witness of C12 on pools holding two objects: one release and acquire, and three
releases followed by three acquires, in both variants. -/
theorem object_pools_lifo_reuse_witness :
    object_pool.Bounds object_pool.examplePool ∧
    object_pool2.Bounds object_pool2.examplePool ∧
    (∃ r, object_pool.release_object object_pool.examplePool 4242 = some r ∧
      r.freed = none ∧ r.pool.index = object_pool.examplePool.index + 1 ∧
      ∃ r', object_pool.acquire_object r.pool 77 = some r' ∧ r'.obj = 4242 ∧
        r'.malloced = false ∧ r'.pool.index = object_pool.examplePool.index ∧
        object_pool.stored r'.pool = object_pool.stored object_pool.examplePool) ∧
    (∃ p, object_pool.releaseAll object_pool.examplePool [11, 12, 13] = some p ∧
      p.index = object_pool.examplePool.index + [11, 12, 13].length ∧
      ∃ p', object_pool.acquireN p 77 [11, 12, 13].length
          = some ([11, 12, 13].reverse, p') ∧
        p'.index = object_pool.examplePool.index ∧
        object_pool.stored p' = object_pool.stored object_pool.examplePool) ∧
    (∃ r, object_pool2.release_object object_pool2.examplePool 4242 = some r ∧
      r.freed = none ∧ r.pool.index = object_pool2.examplePool.index + 1 ∧
      ∃ r', object_pool2.acquire_object r.pool 77 = some r' ∧ r'.obj = 4242 ∧
        r'.malloced = false ∧ r'.pool.index = object_pool2.examplePool.index ∧
        object_pool2.stored r'.pool = object_pool2.stored object_pool2.examplePool) ∧
    (∃ p, object_pool2.releaseAll object_pool2.examplePool [11, 12, 13] = some p ∧
      p.index = object_pool2.examplePool.index + [11, 12, 13].length ∧
      ∃ p', object_pool2.acquireN p 77 [11, 12, 13].length
          = some ([11, 12, 13].reverse, p') ∧
        p'.index = object_pool2.examplePool.index ∧
        object_pool2.stored p' = object_pool2.stored object_pool2.examplePool) :=
  ⟨by decide, by decide,
    (object_pools_lifo_reuse object_pool.examplePool object_pool2.examplePool
      (by decide) (by decide) 77).1.1 4242 (by decide),
    (object_pools_lifo_reuse object_pool.examplePool object_pool2.examplePool
      (by decide) (by decide) 77).1.2 [11, 12, 13] (by decide),
    (object_pools_lifo_reuse object_pool.examplePool object_pool2.examplePool
      (by decide) (by decide) 77).2.1 4242 (by decide),
    (object_pools_lifo_reuse object_pool.examplePool object_pool2.examplePool
      (by decide) (by decide) 77).2.2 [11, 12, 13] (by decide)⟩

/-- C18: bounds invariant of both object pools.  After `create_pool` and every
sequence of `acquire_object` and `release_object` calls no access is outside
`objects` (every call is defined, also the next one), `-1 ≤ index ≤ POOL_SIZE - 1 = 4`,
and the pool stores `index + 1 ≤ POOL_SIZE` objects.  Slots `0 .. index` hold exactly
the released-and-not-yet-reacquired objects, where that record is kept from the calls
alone: every object handed to `release_object` while fewer than `POOL_SIZE` were
recorded, less every object `acquire_object` has returned.  In such a state a release
on a pool that is not full stores the object in slot `index + 1`, touches no other
slot, frees nothing and raises `index` by one; a release on a full pool
(`index = POOL_SIZE - 1`) frees the object and leaves `index` and the stored objects
unchanged; an acquire on a non-empty pool returns the object in slot `index` without
`malloc` and lowers `index` by one; an acquire on an empty pool returns what `malloc`
gives and leaves the pool unchanged. -/
theorem object_pools_bounds_invariant (ops : List object_pool.Op)
    (ops2 : List object_pool2.Op) :
    (∃ s, object_pool.run object_pool.Sys.init ops = some s ∧
      -1 ≤ s.pool.index ∧ s.pool.index ≤ (object_pool.POOL_SIZE : Int) - 1 ∧
      object_pool.POOL_SIZE = 5 ∧
      (object_pool.stored s.pool).length = (s.pool.index + 1).toNat ∧
      (object_pool.stored s.pool).length ≤ object_pool.POOL_SIZE ∧
      (object_pool.stored s.pool).Perm s.kept ∧
      (∀ fresh, ∃ r, object_pool.acquire_object s.pool fresh = some r) ∧
      (∀ obj, ∃ r, object_pool.release_object s.pool obj = some r) ∧
      (s.pool.index = (object_pool.POOL_SIZE : Int) - 1 →
        ∀ obj, object_pool.release_object s.pool obj
          = some { pool := s.pool, freed := some obj }) ∧
      (s.pool.index < (object_pool.POOL_SIZE : Int) - 1 →
        ∀ obj, ∃ r, object_pool.release_object s.pool obj = some r ∧ r.freed = none ∧
          r.pool.index = s.pool.index + 1 ∧
          (∀ k : Fin object_pool.POOL_SIZE, (k.val : Int) = s.pool.index + 1 →
            r.pool.objects k = obj) ∧
          (∀ k : Fin object_pool.POOL_SIZE, (k.val : Int) ≠ s.pool.index + 1 →
            r.pool.objects k = s.pool.objects k) ∧
          object_pool.stored r.pool = object_pool.stored s.pool ++ [obj]) ∧
      (0 ≤ s.pool.index →
        ∀ fresh, ∃ r, object_pool.acquire_object s.pool fresh = some r ∧ r.malloced = false ∧
          r.pool.index = s.pool.index - 1 ∧ r.pool.objects = s.pool.objects ∧
          (∀ k : Fin object_pool.POOL_SIZE, (k.val : Int) = s.pool.index →
            r.obj = s.pool.objects k) ∧
          object_pool.stored s.pool = object_pool.stored r.pool ++ [r.obj]) ∧
      (s.pool.index = -1 →
        ∀ fresh, object_pool.acquire_object s.pool fresh
          = some { obj := fresh, pool := s.pool, malloced := true })) ∧
    (∃ s, object_pool2.run object_pool2.Sys.init ops2 = some s ∧
      -1 ≤ s.pool.index ∧ s.pool.index ≤ (object_pool2.POOL_SIZE : Int) - 1 ∧
      object_pool2.POOL_SIZE = 5 ∧
      (object_pool2.stored s.pool).length = (s.pool.index + 1).toNat ∧
      (object_pool2.stored s.pool).length ≤ object_pool2.POOL_SIZE ∧
      (object_pool2.stored s.pool).Perm s.kept ∧
      (∀ fresh, ∃ r, object_pool2.acquire_object s.pool fresh = some r) ∧
      (∀ obj, ∃ r, object_pool2.release_object s.pool obj = some r) ∧
      (s.pool.index = (object_pool2.POOL_SIZE : Int) - 1 →
        ∀ obj, object_pool2.release_object s.pool obj
          = some { pool := s.pool, freed := some obj }) ∧
      (s.pool.index < (object_pool2.POOL_SIZE : Int) - 1 →
        ∀ obj, ∃ r, object_pool2.release_object s.pool obj = some r ∧ r.freed = none ∧
          r.pool.index = s.pool.index + 1 ∧
          (∀ k : Fin object_pool2.POOL_SIZE, (k.val : Int) = s.pool.index + 1 →
            r.pool.objects k = obj) ∧
          (∀ k : Fin object_pool2.POOL_SIZE, (k.val : Int) ≠ s.pool.index + 1 →
            r.pool.objects k = s.pool.objects k) ∧
          object_pool2.stored r.pool = object_pool2.stored s.pool ++ [obj]) ∧
      (0 ≤ s.pool.index →
        ∀ fresh, ∃ r, object_pool2.acquire_object s.pool fresh = some r ∧ r.malloced = false ∧
          r.pool.index = s.pool.index - 1 ∧ r.pool.objects = s.pool.objects ∧
          (∀ k : Fin object_pool2.POOL_SIZE, (k.val : Int) = s.pool.index →
            r.obj = s.pool.objects k) ∧
          object_pool2.stored s.pool = object_pool2.stored r.pool ++ [r.obj]) ∧
      (s.pool.index = -1 →
        ∀ fresh, object_pool2.acquire_object s.pool fresh
          = some { obj := fresh, pool := s.pool, malloced := true })) :=
  ⟨object_pool.bounds_core ops, object_pool2.bounds_core2 ops2⟩

namespace connection_pool

theorem acquire_scan_none (pool : ConnectionPool) (k : Nat) (h : k ≤ POOL_SIZE)
    (hn : acquire_scan pool k h = none) :
    ∀ j : Fin POOL_SIZE, POOL_SIZE - k ≤ j.val → (pool.connections j).in_use ≠ 0 := by
  induction k with
  | zero =>
    intro j hj
    have := j.isLt
    omega
  | succ k ih =>
    simp only [acquire_scan] at hn
    split at hn
    · cases hn
    · rename_i hne
      intro j hj
      by_cases hjk : j.val = POOL_SIZE - (k + 1)
      · have : j = ⟨POOL_SIZE - (k + 1), by omega⟩ := Fin.ext hjk
        rw [this]
        exact hne
      · exact ih (Nat.le_of_succ_le h) hn j (by omega)

theorem acquire_scan_some (pool : ConnectionPool) (k : Nat) (h : k ≤ POOL_SIZE)
    (i : Fin POOL_SIZE) (p : ConnectionPool) (hs : acquire_scan pool k h = some (i, p)) :
    POOL_SIZE - k ≤ i.val ∧ (pool.connections i).in_use = 0 ∧
      (∀ j : Fin POOL_SIZE, POOL_SIZE - k ≤ j.val → j < i → (pool.connections j).in_use ≠ 0) ∧
      p = { connections :=
              Function.update pool.connections i { pool.connections i with in_use := 1 } } := by
  induction k with
  | zero => simp [acquire_scan] at hs
  | succ k ih =>
    simp only [acquire_scan] at hs
    split at hs
    · rename_i hfree
      simp only [Option.some.injEq, Prod.mk.injEq] at hs
      obtain ⟨hi, hp⟩ := hs
      subst hi
      refine ⟨Nat.le_refl _, hfree, ?_, hp.symm⟩
      intro j hj hlt
      have : j.val < POOL_SIZE - (k + 1) := hlt
      omega
    · rename_i hne
      obtain ⟨h1, h2, h3, h4⟩ := ih (Nat.le_of_succ_le h) hs
      refine ⟨by omega, h2, ?_, h4⟩
      intro j hj hlt
      by_cases hjk : j.val = POOL_SIZE - (k + 1)
      · have : j = ⟨POOL_SIZE - (k + 1), by omega⟩ := Fin.ext hjk
        rw [this]
        exact hne
      · exact h3 j (by omega) hlt

theorem acquire_some {pool : ConnectionPool} {i : Fin POOL_SIZE} {p : ConnectionPool}
    (hs : acquire_connection pool = some (i, p)) :
    (pool.connections i).in_use = 0 ∧
      (∀ j : Fin POOL_SIZE, j < i → (pool.connections j).in_use ≠ 0) ∧
      p = { connections :=
              Function.update pool.connections i { pool.connections i with in_use := 1 } } := by
  obtain ⟨_, h2, h3, h4⟩ := acquire_scan_some pool POOL_SIZE (Nat.le_refl _) i p hs
  exact ⟨h2, fun j hj => h3 j (by omega) hj, h4⟩

theorem acquire_none {pool : ConnectionPool} (hn : acquire_connection pool = none) :
    ∀ j : Fin POOL_SIZE, (pool.connections j).in_use ≠ 0 :=
  fun j => acquire_scan_none pool POOL_SIZE (Nat.le_refl _) hn j (by omega)

theorem conn_step_inv {s s' : Sys} (h : Inv s) (op : Op) (hs : step s op = some s') : Inv s' := by
  cases op with
  | acquire client =>
    simp only [step] at hs
    cases ha : acquire_connection s.pool with
    | none =>
      simp only [ha, Option.some.injEq] at hs
      subst hs
      exact h
    | some r =>
      obtain ⟨i, p⟩ := r
      simp only [ha, Option.some.injEq] at hs
      subst hs
      obtain ⟨hfree, _, hp⟩ := acquire_some ha
      subst hp
      intro j
      by_cases hji : j = i
      · subst hji
        right
        have hnil : s.holders j = [] := by
          rcases h j with ⟨_, hn⟩ | ⟨h1, _⟩
          · exact hn
          · rw [hfree] at h1
            cases h1
        simp only [Function.update_same, hnil, List.length_singleton, and_self]
      · simp only [Function.update_noteq hji]
        exact h j
  | release client c =>
    simp only [step] at hs
    split at hs
    · rename_i hmem
      simp only [Option.some.injEq] at hs
      subst hs
      intro j
      by_cases hjc : j = c
      · subst hjc
        left
        simp only [release_connection, Function.update_same, true_and]
        rcases h j with ⟨_, hn⟩ | ⟨_, h1⟩
        · rw [hn] at hmem
          cases hmem
        · apply List.eq_nil_of_length_eq_zero
          rw [List.length_erase_of_mem hmem, h1]
      · simp only [release_connection, Function.update_noteq hjc]
        exact h j
    · cases hs

theorem conn_inv_init : Inv Sys.init :=
  fun _ => Or.inl ⟨rfl, rfl⟩

theorem conn_run_inv {s s' : Sys} (h : Inv s) (ops : List Op) (hr : run s ops = some s') :
    Inv s' := by
  induction ops generalizing s with
  | nil =>
    simp only [run, Option.some.injEq] at hr
    subst hr
    exact h
  | cons op ops ih =>
    simp only [run] at hr
    cases hst : step s op with
    | none => simp [hst] at hr
    | some s1 =>
      simp only [hst] at hr
      exact ih (conn_step_inv h op hst) hr

theorem held_le {s : Sys} (h : Inv s) : held s ≤ POOL_SIZE := by
  have hle : ∀ x ∈ (List.finRange POOL_SIZE).map (fun i => (s.holders i).length), x ≤ 1 := by
    intro x hx
    obtain ⟨i, _, rfl⟩ := List.mem_map.mp hx
    rcases h i with ⟨_, hn⟩ | ⟨_, h1⟩
    · rw [hn]
      exact Nat.zero_le _
    · exact Nat.le_of_eq h1
  have := List.sum_le_card_nsmul _ 1 hle
  simpa [held] using this

/-- C16: exclusivity of the connection pool.  In every state reached from
`create_connection_pool` by acquire steps and by releases of a connection by a client
holding it, no connection has two holders, a connection has a holder exactly when its
`in_use` flag is 1 (and none exactly when it is 0), at most `POOL_SIZE = 3`
connections are held, and whenever `acquire_connection` returns a connection, its
flag was 0, it had no holder, and the flag is 1 on return. -/
theorem connection_exclusivity (ops : List Op) (s : Sys) (h : run Sys.init ops = some s) :
    (∀ i, (s.holders i).length ≤ 1) ∧
    (∀ i, (s.pool.connections i).in_use = 0 ∨ (s.pool.connections i).in_use = 1) ∧
    (∀ i, (s.pool.connections i).in_use = 0 ↔ s.holders i = []) ∧
    held s ≤ POOL_SIZE ∧ POOL_SIZE = 3 ∧
    (∀ i p, acquire_connection s.pool = some (i, p) →
      (s.pool.connections i).in_use = 0 ∧ s.holders i = [] ∧
      (p.connections i).in_use = 1) := by
  have hinv := conn_run_inv conn_inv_init ops h
  refine ⟨?_, ?_, ?_, held_le hinv, rfl, ?_⟩
  · intro i
    rcases hinv i with ⟨_, hn⟩ | ⟨_, h1⟩
    · rw [hn]
      exact Nat.zero_le _
    · exact Nat.le_of_eq h1
  · intro i
    rcases hinv i with ⟨h0, _⟩ | ⟨h1, _⟩
    · exact Or.inl h0
    · exact Or.inr h1
  · intro i
    rcases hinv i with ⟨h0, hn⟩ | ⟨h1, hl⟩
    · exact ⟨fun _ => hn, fun _ => h0⟩
    · constructor
      · intro h0
        rw [h1] at h0
        cases h0
      · intro hn
        rw [hn] at hl
        cases hl
  · intro i p ha
    obtain ⟨hfree, _, hp⟩ := acquire_some ha
    refine ⟨hfree, ?_, ?_⟩
    · rcases hinv i with ⟨_, hn⟩ | ⟨h1, _⟩
      · exact hn
      · rw [hfree] at h1
        cases h1
    · rw [hp]
      simp only [Function.update_same]

/-- Witness of C16 on `exampleOps`: all three connections end up held, each by one
client. -/
theorem connection_exclusivity_witness :
    ∃ s, run Sys.init exampleOps = some s ∧ held s = 3 ∧
      (∀ i, (s.holders i).length ≤ 1) ∧
      (∀ i, (s.pool.connections i).in_use = 0 ↔ s.holders i = []) ∧
      held s ≤ POOL_SIZE := by
  have hd : (run Sys.init exampleOps).map held = some 3 := by decide
  cases h : run Sys.init exampleOps with
  | none =>
    rw [h] at hd
    cases hd
  | some s =>
    rw [h] at hd
    have hthm := connection_exclusivity exampleOps s h
    exact ⟨s, rfl, by simpa using hd, hthm.1, hthm.2.2.1, hthm.2.2.2.1⟩

/-- C17: `acquire_connection` selects the first free connection.  If some connection
has `in_use = 0`, the call returns the connection of smallest index with `in_use = 0`,
sets its `in_use` to 1, keeps its `id`, and leaves every other connection unchanged;
if every connection is in use it returns nothing (the thread waits).
`release_connection` sets the `in_use` of its connection to 0 and changes nothing
else; on a fresh pool an acquire returns connection 0 and releasing it restores the
initial state. -/
theorem acquire_first_free (pool : ConnectionPool) :
    (∀ i, (pool.connections i).in_use = 0 →
      ∃ k p, acquire_connection pool = some (k, p) ∧ k ≤ i ∧
        (pool.connections k).in_use = 0 ∧
        (∀ j, j < k → (pool.connections j).in_use ≠ 0) ∧
        (p.connections k).in_use = 1 ∧
        (p.connections k).id = (pool.connections k).id ∧
        ∀ j, j ≠ k → p.connections j = pool.connections j) ∧
    ((∀ i, (pool.connections i).in_use ≠ 0) → acquire_connection pool = none) ∧
    (∀ c, ((release_connection pool c).connections c).in_use = 0 ∧
      ((release_connection pool c).connections c).id = (pool.connections c).id ∧
      ∀ j, j ≠ c → (release_connection pool c).connections j = pool.connections j) ∧
    (∃ p, acquire_connection create_connection_pool = some (⟨0, by decide⟩, p) ∧
      release_connection p ⟨0, by decide⟩ = create_connection_pool) := by
  refine ⟨?_, ?_, ?_, ?_⟩
  · intro i hi
    cases ha : acquire_connection pool with
    | none => exact absurd hi (acquire_none ha i)
    | some r =>
      obtain ⟨k, p⟩ := r
      obtain ⟨hfree, hmin, hp⟩ := acquire_some ha
      refine ⟨k, p, rfl, ?_, hfree, hmin, ?_, ?_, ?_⟩
      · by_contra hlt
        exact hmin i (lt_of_not_ge hlt) hi
      · rw [hp]
        simp only [Function.update_same]
      · rw [hp]
        simp only [Function.update_same]
      · intro j hj
        rw [hp]
        exact Function.update_noteq hj _ _
  · intro hall
    cases ha : acquire_connection pool with
    | none => rfl
    | some r =>
      obtain ⟨k, p⟩ := r
      exact absurd (acquire_some ha).1 (hall k)
  · intro c
    refine ⟨?_, ?_, ?_⟩
    · simp only [release_connection, Function.update_same]
    · simp only [release_connection, Function.update_same]
    · intro j hj
      exact Function.update_noteq hj _ _
  · refine ⟨_, rfl, ?_⟩
    show ConnectionPool.mk _ = ConnectionPool.mk _
    congr 1
    funext j
    match j with
    | ⟨0, _⟩ => rfl
    | ⟨1, _⟩ => rfl
    | ⟨2, _⟩ => rfl

end connection_pool

namespace compile_browser

theorem compare_of_small {a b : Int} (ha : -1073741824 ≤ a ∧ a < 1073741824)
    (hb : -1073741824 ≤ b ∧ b < 1073741824) : compare a b = a - b := by
  unfold compare wrap32
  omega

theorem insert_by_perm (cmp : Int → Int → Int) (x : Int) (l : List Int) :
    (insert_by cmp x l).Perm (x :: l) := by
  induction l with
  | nil => exact List.Perm.refl _
  | cons y ys ih =>
    simp only [insert_by]
    split
    · exact List.Perm.refl _
    · exact (List.Perm.cons y ih).trans (List.Perm.swap x y ys)

theorem qsort_perm (cmp : Int → Int → Int) (l : List Int) : (qsort cmp l).Perm l := by
  induction l with
  | nil => exact List.Perm.refl _
  | cons x xs ih =>
    simp only [qsort]
    exact (insert_by_perm cmp x _).trans (List.Perm.cons x ih)

theorem insert_by_sorted (x : Int) (l : List Int)
    (hx : -1073741824 ≤ x ∧ x < 1073741824)
    (hl : ∀ y ∈ l, -1073741824 ≤ y ∧ y < 1073741824) (hs : l.Sorted (· ≤ ·)) :
    (insert_by compare x l).Sorted (· ≤ ·) := by
  induction l with
  | nil => simp [insert_by]
  | cons y ys ih =>
    have hy := hl y (List.mem_cons_self _ _)
    simp only [insert_by, compare_of_small hx hy]
    split
    · rename_i hle
      refine List.sorted_cons.mpr ⟨?_, hs⟩
      intro z hz
      rcases List.mem_cons.mp hz with rfl | hz'
      · omega
      · have := List.rel_of_sorted_cons hs z hz'
        omega
    · rename_i hgt
      have hys := ih (fun z hz => hl z (List.mem_cons_of_mem _ hz)) (List.Sorted.of_cons hs)
      refine List.sorted_cons.mpr ⟨?_, hys⟩
      intro z hz
      rcases List.mem_cons.mp ((insert_by_perm compare x ys).subset hz) with rfl | hz'
      · omega
      · exact List.rel_of_sorted_cons hs z hz'

/-- With every element in `-2^30 .. 2^30 - 1` no subtraction of `compare` overflows
and `sort_array` sorts the whole array. -/
theorem sort_array_sorts_small (arr : List Int)
    (h : ∀ x ∈ arr, -1073741824 ≤ x ∧ x < 1073741824) :
    ∃ out, sort_array arr arr.length = some out ∧ out.Perm arr ∧ out.Sorted (· ≤ ·) := by
  refine ⟨qsort compare arr, ?_, qsort_perm _ _, ?_⟩
  · simp [sort_array]
  · induction arr with
    | nil => simp [qsort]
    | cons x xs ih =>
      simp only [qsort]
      have hxs : ∀ y ∈ xs, -1073741824 ≤ y ∧ y < 1073741824 :=
        fun y hy => h y (List.mem_cons_of_mem _ hy)
      exact insert_by_sorted x _ (h x (List.mem_cons_self _ _))
        (fun y hy => hxs y ((qsort_perm compare xs).subset hy)) (ih hxs)

end compile_browser

/-- C15 at its failing inputs: for `a = 1`, `b = INT_MIN` the value of `compare` is
negative although `a > b`, and for `a = INT_MIN`, `b = 1` it is positive although
`a < b`; for `a = INT_MAX`, `b = -1` it is negative although `a > b`.  Both copies of
`compare` behave so. -/
theorem compare_wrong_on_overflow :
    compile_browser.compare 1 (-2147483648) = -2147483647 ∧
    compile_browser.compare (-2147483648) 1 = 2147483647 ∧
    compile_browser.compare 2147483647 (-1) = -2147483648 ∧
    compile_browser_c.compare 1 (-2147483648) = -2147483647 ∧
    compile_browser_c.compare (-2147483648) 1 = 2147483647 ∧
    compile_browser_c.compare 2147483647 (-1) = -2147483648 := by
  decide

/-- C14 at its failing input: the array `[1, INT_MIN]` is left as it is by
`sort_array`, and the ordered array `[INT_MIN, 1]` is turned into `[1, INT_MIN]`,
which is not in non-decreasing order; the struct variant does the same on an array
that passes its guard. -/
theorem sort_array_fails_on_overflow :
    compile_browser.sort_array [1, -2147483648] 2 = some [1, -2147483648] ∧
    compile_browser.sort_array [-2147483648, 1] 2 = some [1, -2147483648] ∧
    ¬ List.Sorted (· ≤ ·) [(1 : Int), -2147483648] ∧
    compile_browser_c.sort_array
        (some { data := some [1, -2147483648], offset := 0, len := 2, cap := 2, flags := 0,
                element_size := 4 })
      = some (some { data := some [1, -2147483648], offset := 0, len := 2, cap := 2,
                     flags := 0, element_size := 4 }) ∧
    compile_browser_c.sort_array
        (some { data := some [-2147483648, 1], offset := 0, len := 2, cap := 2, flags := 0,
                element_size := 4 })
      = some (some { data := some [1, -2147483648], offset := 0, len := 2, cap := 2,
                     flags := 0, element_size := 4 }) := by
  refine ⟨by decide, by decide, by decide, by decide, by decide⟩

